import Mathlib

/-!
Shallow embedding of the `Banyc/graph` crate (`src/lib.rs`) and proofs about
its traversal algorithms.

Node keys are modelled as natural numbers; the slotmap arena is modelled as an
association list from key to the node's payload, where a payload is exactly
what the `Node` trait exposes: the list of child keys.  Loops in the Rust code
become fuel-indexed tail-recursive functions; a panic (`unwrap` on a missing
key) becomes an explicit `fault` outcome, and the `assert_eq!` inside
`dependency_order` becomes a distinct `assertFail` outcome.
-/

set_option autoImplicit false

namespace GraphSpec

abbrev NodeIdx := Nat

/-- The graph: a slotmap arena of payloads, each payload being its list of
children (`Node::children`).  Iteration order of the arena is the list order;
`get` resolves a key to its payload. -/
structure Graph where
  nodes : List (NodeIdx × List NodeIdx)
deriving Repr, DecidableEq

def Graph.get (g : Graph) (k : NodeIdx) : Option (List NodeIdx) :=
  (g.nodes.find? (fun e => e.1 == k)).map (fun e => e.2)

/-- The keys of the arena, in iteration order. -/
def Graph.keys (g : Graph) : List NodeIdx :=
  g.nodes.map (fun e => e.1)

/-- `SecondaryMap`-as-a-set insert: a set of keys, no duplicate entries. -/
def insertSet (x : NodeIdx) (s : List NodeIdx) : List NodeIdx :=
  if x ∈ s then s else x :: s

/-- `SecondaryMap::remove` for the set use-case. -/
def removeSet (x : NodeIdx) (s : List NodeIdx) : List NodeIdx :=
  s.filter (fun y => y ≠ x)

/-- One edge of the adjacency relation: `childRel g a b` holds when `a`
resolves in the arena and lists `b` among its children. -/
def childRel (g : Graph) (a b : NodeIdx) : Prop :=
  ∃ cs, g.get a = some cs ∧ b ∈ cs

/-- Reachability from a single key via the children relation. -/
def Reach (g : Graph) (a b : NodeIdx) : Prop :=
  Relation.ReflTransGen (childRel g) a b

/-- Reachability from any of the given start keys. -/
def ReachFrom (g : Graph) (starts : List NodeIdx) (b : NodeIdx) : Prop :=
  ∃ a ∈ starts, Reach g a b

/-- The reachable subgraph has no directed cycle. -/
def AcyclicFrom (g : Graph) (starts : List NodeIdx) : Prop :=
  ∀ v, ReachFrom g starts v → ¬ Relation.TransGen (childRel g) v v

/-- Every referenced key (a start or a child listed by some payload) resolves
in the arena. -/
def Closed (g : Graph) (starts : List NodeIdx) : Prop :=
  (∀ s ∈ starts, (g.get s).isSome) ∧
    ∀ p ∈ g.nodes, ∀ c ∈ p.2, (g.get c).isSome

instance (g : Graph) (starts : List NodeIdx) : Decidable (Closed g starts) := by
  unfold Closed
  infer_instance

/-! ### Multi-start depth-first search (`depth_first_search`) -/

/-- Outcome of running a fuel-indexed traversal loop. -/
inductive RunOut where
  | ok (visit : List NodeIdx)
  | fault
  | fuelOut
deriving Repr, DecidableEq

/-- The inner `for` loop of `depth_first_search`: push every child that is not
currently in `in_stack`, updating `in_stack` as we go.  The head of the stack
list is the top of the Rust `Vec` stack. -/
def pushChildren (cs : List NodeIdx) (stack in_stack : List NodeIdx) :
    List NodeIdx × List NodeIdx :=
  match cs with
  | [] => (stack, in_stack)
  | c :: rest =>
    if c ∈ in_stack then pushChildren rest stack in_stack
    else pushChildren rest (c :: stack) (c :: in_stack)

/-- One iteration of the `while let Some(node) = stack.pop()` loop of
`depth_first_search`.  `none` models the `unwrap` panic on a key that does not
resolve. -/
def dfsStep (g : Graph) (stack in_stack visit : List NodeIdx) :
    Option (List NodeIdx × List NodeIdx × List NodeIdx) :=
  match stack with
  | [] => some ([], in_stack, visit)
  | node :: rest =>
    let ins := removeSet node in_stack
    match g.get node with
    | none => none
    | some cs =>
      let p := pushChildren cs rest ins
      some (p.1, p.2, visit ++ [node])

def dfsAux (g : Graph) : Nat → List NodeIdx → List NodeIdx → List NodeIdx → RunOut
  | 0, _, _, _ => .fuelOut
  | _ + 1, [], _, visit => .ok visit
  | fuel + 1, node :: rest, in_stack, visit =>
    match dfsStep g (node :: rest) in_stack visit with
    | none => .fault
    | some s => dfsAux g fuel s.1 s.2.1 s.2.2

/-- The seeding loop: `for start in starts { stack.push(start); in_stack.insert(start) }`.
With the head of the list as the top of the stack, the stack ends up as
`starts.reverse`. -/
def seedInStack (starts : List NodeIdx) : List NodeIdx :=
  starts.foldl (fun s x => insertSet x s) []

def depth_first_search (g : Graph) (starts : List NodeIdx) (fuel : Nat) : RunOut :=
  dfsAux g fuel starts.reverse (seedInStack starts) []

/-! ### Dependency order (`dependency_order`) -/

structure Edge where
  parent : Option NodeIdx
  child : NodeIdx
deriving Repr, DecidableEq

/-- The pending-children counters (`SecondaryMap<NodeIdx, usize>`), as an
association list with distinct keys (a key is only ever inserted when
absent). -/
abbrev PMap := List (NodeIdx × Nat)

def pLookup (k : NodeIdx) (p : PMap) : Option Nat :=
  (p.find? (fun e => e.1 == k)).map (fun e => e.2)

def pInsert (k : NodeIdx) (v : Nat) (p : PMap) : PMap :=
  (k, v) :: p

/-- `*pending_children.get_mut(k).unwrap() -= 1` (on the first, unique entry). -/
def pDec (k : NodeIdx) : PMap → PMap
  | [] => []
  | (a, n) :: rest => if a = k then (a, n - 1) :: rest else (a, n) :: pDec k rest

/-- Outcome of `dependency_order`, distinguishing an `unwrap` panic (`fault`)
from the `assert_eq!` panic (`assertFail`). -/
inductive DepOut where
  | ok (visit : List NodeIdx)
  | fault
  | assertFail
  | fuelOut
deriving Repr, DecidableEq

/-- The `for child in children` expansion loop in the nonzero-pending branch:
a child already tracked by `pending_children` must have counter 0 (else the
`assert_eq!` fires, modelled by `none`) and decrements the current node's
counter; an untracked child gets a new edge pushed. -/
def expand (node : NodeIdx) (cs : List NodeIdx) (stack : List Edge) (pending : PMap) :
    Option (List Edge × PMap) :=
  match cs with
  | [] => some (stack, pending)
  | c :: rest =>
    match pLookup c pending with
    | some n =>
      if n = 0 then expand node rest stack (pDec node pending)
      else none
    | none => expand node rest ({ parent := some node, child := c } :: stack) pending

/-- One iteration of the `while let Some(edge) = stack.pop()` loop of
`dependency_order`. -/
inductive DepStep where
  | done (visit : List NodeIdx)
  | fault
  | assertFail
  | next (stack : List Edge) (pending : PMap) (visited visit : List NodeIdx)
deriving Repr, DecidableEq

def depStep (g : Graph) (stack : List Edge) (pending : PMap)
    (visited visit : List NodeIdx) : DepStep :=
  match stack with
  | [] => .done visit
  | edge :: rest =>
    let node := edge.child
    let init : Option PMap :=
      match pLookup node pending with
      | some _ => some pending
      | none =>
        match g.get node with
        | none => none
        | some cs => some (pInsert node cs.length pending)
    match init with
    | none => .fault
    | some pending =>
      match pLookup node pending with
      | none => .fault
      | some n =>
        if n = 0 then
          let vv : List NodeIdx × List NodeIdx :=
            if node ∈ visited then (visited, visit)
            else (node :: visited, visit ++ [node])
          match edge.parent with
          | none => .next rest pending vv.1 vv.2
          | some pa =>
            match pLookup pa pending with
            | none => .fault
            | some _ => .next rest (pDec pa pending) vv.1 vv.2
        else
          match g.get node with
          | none => .fault
          | some cs =>
            match expand node cs (edge :: rest) pending with
            | none => .assertFail
            | some sp => .next sp.1 sp.2 visited visit

def depAux (g : Graph) : Nat → List Edge → PMap → List NodeIdx → List NodeIdx → DepOut
  | 0, _, _, _, _ => .fuelOut
  | fuel + 1, stack, pending, visited, visit =>
    match depStep g stack pending visited visit with
    | .done v => .ok v
    | .fault => .fault
    | .assertFail => .assertFail
    | .next st p vd vt => depAux g fuel st p vd vt

def dependency_order (g : Graph) (starts : List NodeIdx) (fuel : Nat) : DepOut :=
  depAux g fuel (starts.reverse.map (fun s => { parent := none, child := s })) [] [] []

/-! ### Breadth-first search (`breath_first_search`) -/

inductive NextMove where
  | Postpone
  | TerminateBranch
  | VisitChildren
deriving Repr, DecidableEq

/-- A visitor: receives its own state, exclusive access to the graph and the
dequeued key; returns the updated state, the (possibly mutated) graph and a
directive. -/
abbrev Visitor (σ : Type) := σ → Graph → NodeIdx → σ × Graph × NextMove

/-- The child-enqueueing loop of the `VisitChildren` branch: enqueue at the
back every child not already in the queue. -/
def enqueueChildren (cs queue in_queue : List NodeIdx) : List NodeIdx × List NodeIdx :=
  match cs with
  | [] => (queue, in_queue)
  | c :: rest =>
    if c ∈ in_queue then enqueueChildren rest queue in_queue
    else enqueueChildren rest (queue ++ [c]) (insertSet c in_queue)

inductive BfsOut (σ : Type) where
  | ok (g : Graph) (s : σ) (trace : List NodeIdx)
  | fault (trace : List NodeIdx)
  | fuelOut (trace : List NodeIdx)
deriving Repr, DecidableEq

/-- One iteration of the BFS loop: dequeue from the front, drop the in-queue
marker, run the visitor, then act on the directive.  The trace records every
dequeued node (i.e. every visitor invocation). -/
inductive BfsStep (σ : Type) where
  | done
  | fault
  | next (g : Graph) (queue in_queue : List NodeIdx) (s : σ)

def bfsStep {σ : Type} (visit : Visitor σ) (g : Graph)
    (queue in_queue : List NodeIdx) (s : σ) : BfsStep σ :=
  match queue with
  | [] => .done
  | node :: rest =>
    let inq := removeSet node in_queue
    let r := visit s g node
    match r.2.2 with
    | .Postpone => .next r.2.1 (rest ++ [node]) (insertSet node inq) r.1
    | .TerminateBranch => .next r.2.1 rest inq r.1
    | .VisitChildren =>
      match r.2.1.get node with
      | none => .fault
      | some cs =>
        let qq := enqueueChildren cs rest inq
        .next r.2.1 qq.1 qq.2 r.1

def bfsAux {σ : Type} (visit : Visitor σ) :
    Nat → Graph → List NodeIdx → List NodeIdx → σ → List NodeIdx → BfsOut σ
  | 0, _, _, _, _, trace => .fuelOut trace
  | fuel + 1, g, queue, in_queue, s, trace =>
    match queue with
    | [] => .ok g s trace
    | node :: rest =>
      match bfsStep visit g (node :: rest) in_queue s with
      | .done => .ok g s trace
      | .fault => .fault (trace ++ [node])
      | .next g' q' inq' s' => bfsAux visit fuel g' q' inq' s' (trace ++ [node])

def breath_first_search {σ : Type} (visit : Visitor σ) (g : Graph) (start : NodeIdx)
    (s : σ) (fuel : Nat) : BfsOut σ :=
  bfsAux visit fuel g [start] [start] s []

/-! ### DOT export (`to_dot`) -/

/-- `to_dot`, parametrised by the debug rendering of a key.  A literal brace
is written with its escape to keep it out of interpolation. -/
def to_dot (dbg : NodeIdx → String) (g : Graph) : String :=
  let dot := "digraph \x7b\n"
  let dot := g.nodes.foldl
    (fun dot p =>
      p.2.foldl
        (fun dot child =>
          dot ++ "\x22" ++ dbg p.1 ++ "\x22 -> \x22" ++ dbg child ++ "\x22\n")
        dot)
    dot
  dot ++ "\x7d"

/-- The (node, child) pairs of the graph, nodes in arena iteration order and
children in each node's own order. -/
def edgePairs (g : Graph) : List (NodeIdx × NodeIdx) :=
  g.nodes.flatMap (fun p => p.2.map (fun c => (p.1, c)))

/-- The graph-mutation a BFS visitor can perform through `nodes_mut`:
replace the payload stored at a key. -/
def Graph.set (g : Graph) (k : NodeIdx) (cs : List NodeIdx) : Graph :=
  ⟨g.nodes.map (fun p => if p.1 = k then (k, cs) else p)⟩

/-! ### Concrete graphs and visitors used in the theorems -/

/-- The diamond: 0 → 1, 0 → 2, 1 → 3, 2 → 3. -/
def gDiamond : Graph :=
  ⟨[(0, [1, 2]), (1, [3]), (2, [3]), (3, [])]⟩

/-- A two-node line: 0 → 1. -/
def gLine : Graph :=
  ⟨[(0, [1]), (1, [])]⟩

/-- Three nodes: 0 → 1, and isolated 2 (used to observe visitor mutation). -/
def gTri : Graph :=
  ⟨[(0, [1]), (1, []), (2, [])]⟩

/-- A two-node directed cycle: 0 → 1 → 0. -/
def gCycle : Graph :=
  ⟨[(0, [1]), (1, [0])]⟩

/-- A dangling edge: node 0 lists child 1 but key 1 does not resolve. -/
def gDangling : Graph :=
  ⟨[(0, [1])]⟩

/-- A single node with no children. -/
def gSolo : Graph :=
  ⟨[(0, [])]⟩

/-- A visitor that always prunes. -/
def visTerm : Visitor Unit :=
  fun s g _ => (s, g, .TerminateBranch)

/-- A visitor that postpones node 0 exactly once (counting with its state)
and expands otherwise. -/
def visPostpone : Visitor Nat :=
  fun s g n => if n = 0 ∧ s = 0 then (1, g, .Postpone) else (s, g, .VisitChildren)

/-- A visitor that, at node 0, rewrites node 0's adjacency from `[1]` to `[2]`
before asking for its children to be visited. -/
def visMut : Visitor Unit :=
  fun s g n => if n = 0 then (s, g.set 0 [2], .VisitChildren) else (s, g, .VisitChildren)

/-! ### Small set lemmas -/

theorem mem_insertSet {x y : NodeIdx} {s : List NodeIdx} :
    x ∈ insertSet y s ↔ x = y ∨ x ∈ s := by
  unfold insertSet
  by_cases h : y ∈ s
  · simp only [if_pos h]
    constructor
    · exact Or.inr
    · rintro (rfl | hx)
      · exact h
      · exact hx
  · simp [if_neg h]

theorem mem_removeSet {x y : NodeIdx} {s : List NodeIdx} :
    x ∈ removeSet y s ↔ x ∈ s ∧ x ≠ y := by
  simp [removeSet]

/-! ### DOT export: structure of the output -/

/-- One rendered edge line. -/
def edgeLine (dbg : NodeIdx → String) (e : NodeIdx × NodeIdx) : String :=
  "\x22" ++ dbg e.1 ++ "\x22 -> \x22" ++ dbg e.2 ++ "\x22\n"

theorem strJoin_cons (a : String) (l : List String) :
    String.join (a :: l) = a ++ String.join l := by
  apply String.ext
  simp

theorem strJoin_append (l₁ l₂ : List String) :
    String.join (l₁ ++ l₂) = String.join l₁ ++ String.join l₂ := by
  induction l₁ with
  | nil =>
    have : String.join ([] : List String) = "" := rfl
    simp [this, String.empty_append]
  | cons a l ih =>
    simp only [List.cons_append, strJoin_cons, ih, String.append_assoc]

theorem to_dot_inner (dbg : NodeIdx → String) (i : NodeIdx) (cs : List NodeIdx)
    (acc : String) :
    cs.foldl
      (fun dot child => dot ++ "\x22" ++ dbg i ++ "\x22 -> \x22" ++ dbg child ++ "\x22\n")
      acc
      = acc ++ String.join (cs.map (fun c => edgeLine dbg (i, c))) := by
  induction cs generalizing acc with
  | nil =>
    have : String.join ([] : List String) = "" := rfl
    simp [this, String.append_empty]
  | cons c rest ih =>
    simp only [List.foldl_cons, ih, List.map_cons, strJoin_cons]
    simp [edgeLine, String.append_assoc]

theorem to_dot_outer (dbg : NodeIdx → String) (nodes : List (NodeIdx × List NodeIdx))
    (acc : String) :
    nodes.foldl
      (fun dot p =>
        p.2.foldl
          (fun dot child => dot ++ "\x22" ++ dbg p.1 ++ "\x22 -> \x22" ++ dbg child ++ "\x22\n")
          dot)
      acc
      = acc ++ String.join
          ((nodes.flatMap (fun p => p.2.map (fun c => (p.1, c)))).map (edgeLine dbg)) := by
  induction nodes generalizing acc with
  | nil =>
    have : String.join ([] : List String) = "" := rfl
    simp [this, String.append_empty]
  | cons p rest ih =>
    rw [List.foldl_cons, ih, to_dot_inner, List.flatMap_cons, List.map_append,
      strJoin_append, String.append_assoc, List.map_map]
    rfl

/-- C8: `to_dot` emits exactly the header line, then one quoted
`"node" -> "child"` line per (node, child) pair — nodes in arena iteration
order and children in each node's own order — and a closing brace with no
extra separator; on the two-node line graph the output is the exact
three-line text.  (`to_dot` is a pure function of the graph, so the graph is
left unchanged by construction.) -/
theorem to_dot_shape :
    (∀ (dbg : NodeIdx → String) (g : Graph),
      to_dot dbg g
        = "digraph \x7b\n" ++ String.join ((edgePairs g).map (edgeLine dbg)) ++ "\x7d")
    ∧ to_dot (fun n => toString n) gLine = "digraph \x7b\n\x220\x22 -> \x221\x22\n\x7d" := by
  constructor
  · intro dbg g
    show (g.nodes.foldl _ "digraph \x7b\n") ++ "\x7d" = _
    rw [to_dot_outer]
    rfl
  · rfl

/-! ### Multi-start DFS: dedup invariant and a double-visit run (C3) -/

theorem pushChildren_nodup (cs : List NodeIdx) (stack in_stack : List NodeIdx)
    (hnd : stack.Nodup) (hsync : ∀ x, x ∈ in_stack ↔ x ∈ stack) :
    (pushChildren cs stack in_stack).1.Nodup
      ∧ ∀ x, x ∈ (pushChildren cs stack in_stack).2 ↔ x ∈ (pushChildren cs stack in_stack).1 := by
  induction cs generalizing stack in_stack with
  | nil => exact ⟨hnd, hsync⟩
  | cons c rest ih =>
    by_cases hc : c ∈ in_stack
    · simpa [pushChildren, hc] using ih stack in_stack hnd hsync
    · have hcs : c ∉ stack := fun h => hc ((hsync c).mpr h)
      have hnd' : (c :: stack).Nodup := List.nodup_cons.mpr ⟨hcs, hnd⟩
      have hs' : ∀ x, x ∈ c :: in_stack ↔ x ∈ c :: stack := by
        intro x
        simp [hsync x]
      simpa [pushChildren, hc] using ih (c :: stack) (c :: in_stack) hnd' hs'

/-- C3: in the multi-start DFS the dedup set tracks only current stack
membership.  First: on the diamond graph with the single start 0, node 3 is
popped, emitted, rediscovered and emitted again — it appears twice in the
output.  Second: a node already pending on the stack is never pushed a second
time — one loop iteration preserves the invariant that the stack is
duplicate-free and the `in_stack` set holds exactly the stack's members. -/
theorem dfs_on_stack_dedup :
    (depth_first_search gDiamond [0] 6 = .ok [0, 2, 3, 1, 3]
      ∧ List.count 3 [0, 2, 3, 1, 3] = 2)
    ∧ ∀ (g : Graph) (stack in_stack visit : List NodeIdx)
        (out : List NodeIdx × List NodeIdx × List NodeIdx),
        stack.Nodup → (∀ x, x ∈ in_stack ↔ x ∈ stack) →
        dfsStep g stack in_stack visit = some out →
        out.1.Nodup ∧ ∀ x, x ∈ out.2.1 ↔ x ∈ out.1 := by
  refine ⟨⟨by decide, by decide⟩, ?_⟩
  intro g stack in_stack visit out hnd hsync hstep
  match stack, hstep with
  | [], hstep =>
    simp only [dfsStep, Option.some.injEq] at hstep
    subst hstep
    refine ⟨List.nodup_nil, ?_⟩
    intro x
    constructor
    · intro hx
      exact absurd ((hsync x).mp hx) (List.not_mem_nil x)
    · intro hx
      exact absurd hx (List.not_mem_nil x)
  | node :: rest, hstep =>
    have hnd' : rest.Nodup := (List.nodup_cons.mp hnd).2
    have hnode : node ∉ rest := (List.nodup_cons.mp hnd).1
    have hsync' : ∀ x, x ∈ removeSet node in_stack ↔ x ∈ rest := by
      intro x
      rw [mem_removeSet, hsync x, List.mem_cons]
      constructor
      · rintro ⟨hx | hx, hne⟩
        · exact absurd hx hne
        · exact hx
      · intro hx
        exact ⟨Or.inr hx, fun h => hnode (h ▸ hx)⟩
    simp only [dfsStep] at hstep
    match hg : g.get node with
    | none => rw [hg] at hstep; exact absurd hstep (by simp)
    | some cs =>
      rw [hg] at hstep
      simp only [Option.some.injEq] at hstep
      subst hstep
      exact pushChildren_nodup cs rest (removeSet node in_stack) hnd' hsync'

/-! ### Fault propagation on unresolvable keys (C4) -/

/-- C4: in each of the three traversals, the moment a looked-up key fails to
resolve in the arena the loop aborts with a fault: the very step faults, and
the whole fuel-indexed run returns the fault outcome rather than any normal
result. -/
theorem unresolvable_key_faults :
    (∀ (g : Graph) (node : NodeIdx) (rest in_stack visit : List NodeIdx),
      g.get node = none →
      dfsStep g (node :: rest) in_stack visit = none
        ∧ ∀ fuel, dfsAux g (fuel + 1) (node :: rest) in_stack visit = .fault)
    ∧ (∀ (g : Graph) (edge : Edge) (rest : List Edge) (pending : PMap)
        (visited visit : List NodeIdx),
        pLookup edge.child pending = none → g.get edge.child = none →
        depStep g (edge :: rest) pending visited visit = .fault
          ∧ ∀ fuel, depAux g (fuel + 1) (edge :: rest) pending visited visit = .fault)
    ∧ ∀ (σ : Type) (vis : Visitor σ) (g : Graph) (node : NodeIdx)
        (rest in_queue : List NodeIdx) (s : σ),
        (vis s g node).2.2 = .VisitChildren → ((vis s g node).2.1).get node = none →
        bfsStep vis g (node :: rest) in_queue s = .fault
          ∧ ∀ fuel trace,
              bfsAux vis (fuel + 1) g (node :: rest) in_queue s trace
                = .fault (trace ++ [node]) := by
  refine ⟨?_, ?_, ?_⟩
  · intro g node rest in_stack visit hg
    have hstep : dfsStep g (node :: rest) in_stack visit = none := by
      simp [dfsStep, hg]
    exact ⟨hstep, fun fuel => by simp [dfsAux, hstep]⟩
  · intro g edge rest pending visited visit hp hg
    have hstep : depStep g (edge :: rest) pending visited visit = .fault := by
      simp [depStep, hp, hg]
    exact ⟨hstep, fun fuel => by simp [depAux, hstep]⟩
  · intro σ vis g node rest in_queue s hmv hg
    have hstep : bfsStep vis g (node :: rest) in_queue s = .fault := by
      simp [bfsStep, hmv, hg]
    exact ⟨hstep, fun fuel trace => by simp [bfsAux, hstep]⟩

theorem unresolvable_key_faults_witness :
    gDangling.get 0 = some [1]
    ∧ gDangling.get 1 = none
    ∧ dfsStep gDangling [1] [] [0] = none
    ∧ dfsAux gDangling 2 [1] [] [0] = .fault
    ∧ depStep gDangling [{ parent := some 0, child := 1 }] [(0, 1)] [] [] = .fault
    ∧ depAux gDangling 3 [{ parent := some 0, child := 1 }] [(0, 1)] [] [] = .fault
    ∧ bfsStep (fun (s : Unit) g _ => (s, g, .VisitChildren)) gDangling [1] [] () = .fault
    ∧ bfsAux (fun (s : Unit) g _ => (s, g, .VisitChildren)) 3 gDangling [1] [] () [0]
        = .fault [0, 1] := by
  have h1 := unresolvable_key_faults.1 gDangling 1 [] [] [0] (by decide)
  have h2 := unresolvable_key_faults.2.1 gDangling { parent := some 0, child := 1 } []
    [(0, 1)] [] [] (by decide) (by decide)
  have h3 := unresolvable_key_faults.2.2 Unit (fun s g _ => (s, g, .VisitChildren))
    gDangling 1 [] [] () rfl (by decide)
  refine ⟨by decide, by decide, h1.1, ?_, h2.1, ?_, h3.1, ?_⟩
  · exact h1.2 1
  · exact h2.2 2
  · exact h3.2 2 [0]

theorem dfs_on_stack_dedup_witness :
    (([3, 1] : List NodeIdx).Nodup ∧ (∀ x : NodeIdx, x ∈ [1, 3] ↔ x ∈ ([3, 1] : List NodeIdx)))
    ∧ (([1] : List NodeIdx).Nodup
        ∧ ∀ x : NodeIdx, x ∈ ([1] : List NodeIdx) ↔ x ∈ ([1] : List NodeIdx)) := by
  have hsync : ∀ x : NodeIdx, x ∈ [1, 3] ↔ x ∈ ([3, 1] : List NodeIdx) := by
    intro x
    simp [or_comm]
  refine ⟨⟨by decide, hsync⟩, ?_⟩
  exact dfs_on_stack_dedup.2 gDiamond [3, 1] [1, 3] [0, 2] ([1], [1], [0, 2, 3])
    (by decide) hsync (by decide)

/-! ### BFS directive semantics (C5, C6, C7) -/

/-- C5: when the visitor answers `TerminateBranch` for the dequeued node, that
step enqueues nothing — the queue shrinks to its tail, the node's in-queue
marker is dropped, and none of the node's children are examined; as a run, the
always-pruning visitor on the line graph dequeues only the start, so child 1
is never dequeued. -/
theorem bfs_terminate_branch :
    (∀ (σ : Type) (vis : Visitor σ) (g g' : Graph) (node : NodeIdx)
        (rest in_queue : List NodeIdx) (s s' : σ),
      vis s g node = (s', g', .TerminateBranch) →
      bfsStep vis g (node :: rest) in_queue s = .next g' rest (removeSet node in_queue) s'
        ∧ ∀ fuel trace,
            bfsAux vis (fuel + 1) g (node :: rest) in_queue s trace
              = bfsAux vis fuel g' rest (removeSet node in_queue) s' (trace ++ [node]))
    ∧ breath_first_search visTerm gLine 0 () 5 = .ok gLine () [0]
      ∧ (1 : NodeIdx) ∉ ([0] : List NodeIdx) := by
  refine ⟨?_, by decide, by decide⟩
  intro σ vis g g' node rest in_queue s s' h
  have hstep : bfsStep vis g (node :: rest) in_queue s
      = .next g' rest (removeSet node in_queue) s' := by
    simp [bfsStep, h]
  exact ⟨hstep, fun fuel trace => by simp [bfsAux, hstep]⟩

theorem bfs_terminate_branch_witness :
    visTerm () gLine 0 = ((), gLine, .TerminateBranch)
    ∧ bfsStep visTerm gLine [0] [0] () = .next gLine [] (removeSet 0 [0]) () := by
  refine ⟨rfl, ?_⟩
  exact (bfs_terminate_branch.1 Unit visTerm gLine gLine 0 [] [0] () () rfl).1

/-- C6: when the visitor answers `Postpone`, the node goes back to the tail of
the queue with its in-queue marker re-asserted and its children are not
examined in that round; with the visitor that postpones node 0 exactly once on
the line graph, node 0 is dequeued exactly twice and its child is dequeued
only after the second dequeue. -/
theorem bfs_postpone :
    (∀ (σ : Type) (vis : Visitor σ) (g g' : Graph) (node : NodeIdx)
        (rest in_queue : List NodeIdx) (s s' : σ),
      vis s g node = (s', g', .Postpone) →
      bfsStep vis g (node :: rest) in_queue s
          = .next g' (rest ++ [node]) (insertSet node (removeSet node in_queue)) s'
        ∧ ∀ fuel trace,
            bfsAux vis (fuel + 1) g (node :: rest) in_queue s trace
              = bfsAux vis fuel g' (rest ++ [node])
                  (insertSet node (removeSet node in_queue)) s' (trace ++ [node]))
    ∧ breath_first_search visPostpone gLine 0 0 10 = .ok gLine 1 [0, 0, 1]
      ∧ List.count 0 [0, 0, 1] = 2 := by
  refine ⟨?_, by decide, by decide⟩
  intro σ vis g g' node rest in_queue s s' h
  have hstep : bfsStep vis g (node :: rest) in_queue s
      = .next g' (rest ++ [node]) (insertSet node (removeSet node in_queue)) s' := by
    simp [bfsStep, h]
  exact ⟨hstep, fun fuel trace => by simp [bfsAux, hstep]⟩

theorem bfs_postpone_witness :
    visPostpone 0 gLine 0 = (1, gLine, .Postpone)
    ∧ bfsStep visPostpone gLine [0] [0] 0
        = .next gLine ([] ++ [0]) (insertSet 0 (removeSet 0 [0])) 1 := by
  refine ⟨rfl, ?_⟩
  exact (bfs_postpone.1 Nat visPostpone gLine gLine 0 [] [0] 0 1 rfl).1

theorem enqueueChildren_count (cs : List NodeIdx) (queue in_queue : List NodeIdx)
    (c : NodeIdx) (hc : c ∈ in_queue) :
    (enqueueChildren cs queue in_queue).1.count c = queue.count c := by
  induction cs generalizing queue in_queue with
  | nil => rfl
  | cons d rest ih =>
    by_cases hd : d ∈ in_queue
    · simpa [enqueueChildren, hd] using ih queue in_queue hc
    · have hdc : d ≠ c := fun h => hd (h ▸ hc)
      have hc' : c ∈ insertSet d in_queue := mem_insertSet.mpr (Or.inr hc)
      have : (enqueueChildren (d :: rest) queue in_queue).1
          = (enqueueChildren rest (queue ++ [d]) (insertSet d in_queue)).1 := by
        simp [enqueueChildren, hd]
      rw [this, ih (queue ++ [d]) (insertSet d in_queue) hc']
      simp [List.count_append, List.count_singleton, hdc]

/-- C7: when the visitor answers `VisitChildren`, the enqueued children are
read from the graph the visitor returned (so adjacency mutations made by the
visitor are observed), and a child whose key is already in the in-queue set is
not enqueued again; concretely, a visitor that rewrites node 0's children from
`[1]` to `[2]` causes 2 — not 1 — to be enqueued and dequeued. -/
theorem bfs_visit_children :
    (∀ (σ : Type) (vis : Visitor σ) (g g' : Graph) (node : NodeIdx)
        (rest in_queue : List NodeIdx) (s s' : σ) (cs : List NodeIdx),
      vis s g node = (s', g', .VisitChildren) →
      g'.get node = some cs →
      bfsStep vis g (node :: rest) in_queue s
        = .next g' (enqueueChildren cs rest (removeSet node in_queue)).1
            (enqueueChildren cs rest (removeSet node in_queue)).2 s')
    ∧ (∀ (cs queue in_queue : List NodeIdx) (c : NodeIdx), c ∈ in_queue →
        (enqueueChildren cs queue in_queue).1.count c = queue.count c)
    ∧ breath_first_search visMut gTri 0 () 10 = .ok (gTri.set 0 [2]) () [0, 2]
      ∧ (1 : NodeIdx) ∉ ([0, 2] : List NodeIdx) := by
  refine ⟨?_, enqueueChildren_count, by decide, by decide⟩
  intro σ vis g g' node rest in_queue s s' cs h hg
  simp [bfsStep, h, hg]

theorem bfs_visit_children_witness :
    visMut () gTri 0 = ((), gTri.set 0 [2], .VisitChildren)
    ∧ (gTri.set 0 [2]).get 0 = some [2]
    ∧ bfsStep visMut gTri [0] [0] ()
        = .next (gTri.set 0 [2]) (enqueueChildren [2] [] (removeSet 0 [0])).1
            (enqueueChildren [2] [] (removeSet 0 [0])).2 ()
    ∧ (0 : NodeIdx) ∈ ([0] : List NodeIdx)
    ∧ (enqueueChildren [0] [] [0]).1.count 0 = ([] : List NodeIdx).count 0 := by
  refine ⟨by decide, by decide, ?_, by decide, ?_⟩
  · exact bfs_visit_children.1 Unit visMut gTri (gTri.set 0 [2]) 0 [] [0] () () [2]
      (by decide) (by decide)
  · exact bfs_visit_children.2.1 [0] [] [0] 0 (by decide)

/-! ### Single-start visit-once DFS (spec §4.2) -/

/-- Modelled from the spec: the single-start, visit-once depth-first traversal
of §4.2 ("maintain a seen set and an explicit stack; seed both with `start`;
pop a node, append it to the output, fail if the key does not resolve, then
for each child not yet in the seen set, mark it seen and push it").  Only the
multi-start variant appears in `src/src/lib.rs`; this earlier variant is
reconstructed from the spec's algorithm.  The child-pushing discipline is the
same fold as the multi-start one, except that the seen set is never shrunk on
pop. -/
def sdfsAux (g : Graph) : Nat → List NodeIdx → List NodeIdx → List NodeIdx → RunOut
  | 0, _, _, _ => .fuelOut
  | _ + 1, [], _, visit => .ok visit
  | fuel + 1, node :: rest, seen, visit =>
    match g.get node with
    | none => .fault
    | some cs =>
      let p := pushChildren cs rest seen
      sdfsAux g fuel p.1 p.2 (visit ++ [node])

/-- Modelled from the spec: entry point of the §4.2 traversal. -/
def single_start_dfs (g : Graph) (start : NodeIdx) (fuel : Nat) : RunOut :=
  sdfsAux g fuel [start] [start] []

/-! ### Basic facts about `Graph.get` and reachability -/

theorem get_mem {g : Graph} {u : NodeIdx} {cs : List NodeIdx}
    (h : g.get u = some cs) : (u, cs) ∈ g.nodes := by
  unfold Graph.get at h
  match hf : g.nodes.find? (fun e => e.1 == u) with
  | none => rw [hf] at h; exact absurd h (by simp)
  | some e =>
    rw [hf] at h
    simp at h
    have hmem := List.mem_of_find?_eq_some hf
    have hpred := List.find?_some hf
    have he1 : e.1 = u := by simpa using hpred
    have : e = (u, cs) := by
      cases e
      simp_all
    exact this ▸ hmem

theorem mem_keys_of_isSome {g : Graph} {c : NodeIdx} (h : (g.get c).isSome) :
    c ∈ g.keys := by
  match hg : g.get c with
  | none => rw [hg] at h; exact absurd h (by simp)
  | some cs =>
    have := get_mem hg
    unfold Graph.keys
    exact List.mem_map.mpr ⟨(c, cs), this, rfl⟩

theorem child_isSome {g : Graph} {starts : List NodeIdx} (hcl : Closed g starts)
    {u : NodeIdx} {cs : List NodeIdx} (hget : g.get u = some cs) {c : NodeIdx}
    (hc : c ∈ cs) : (g.get c).isSome :=
  hcl.2 (u, cs) (get_mem hget) c hc

theorem reach_isSome {g : Graph} {starts : List NodeIdx} (hcl : Closed g starts)
    {x y : NodeIdx} (hx : x ∈ starts) (h : Reach g x y) : (g.get y).isSome := by
  induction h with
  | refl => exact hcl.1 x hx
  | tail _ hstep ih =>
    obtain ⟨cs, hget, hc⟩ := hstep
    exact child_isSome hcl hget hc

/-! ### The visit-once invariant (C2) -/

/-- The loop invariant of the §4.2 traversal: output and stack are jointly
duplicate-free, the seen set is exactly their union, everything seen is
reachable from the start, and every emitted node's children are seen. -/
def SInv (g : Graph) (start : NodeIdx) (stack seen visit : List NodeIdx) : Prop :=
  (visit ++ stack).Nodup
  ∧ (∀ x, x ∈ seen ↔ x ∈ visit ∨ x ∈ stack)
  ∧ (∀ x ∈ seen, Reach g start x)
  ∧ (∀ v ∈ visit, ∀ cs, g.get v = some cs → ∀ c ∈ cs, c ∈ seen)
  ∧ start ∈ seen

theorem pushChildren_seen_nodup (cs : List NodeIdx) (stack seen A : List NodeIdx)
    (hnd : (A ++ stack).Nodup) (hseen : ∀ x, x ∈ seen ↔ x ∈ A ∨ x ∈ stack) :
    (A ++ (pushChildren cs stack seen).1).Nodup
      ∧ ∀ x, x ∈ (pushChildren cs stack seen).2
          ↔ x ∈ A ∨ x ∈ (pushChildren cs stack seen).1 := by
  induction cs generalizing stack seen with
  | nil => exact ⟨hnd, hseen⟩
  | cons c rest ih =>
    by_cases hc : c ∈ seen
    · simpa [pushChildren, hc] using ih stack seen hnd hseen
    · have hcA : c ∉ A ∧ c ∉ stack := by
        constructor
        · exact fun h => hc ((hseen c).mpr (Or.inl h))
        · exact fun h => hc ((hseen c).mpr (Or.inr h))
      have hnd' : (A ++ c :: stack).Nodup := by
        rw [List.nodup_middle, List.nodup_cons]
        refine ⟨?_, hnd⟩
        intro hmem
        rcases List.mem_append.mp hmem with h | h
        · exact hcA.1 h
        · exact hcA.2 h
      have hseen' : ∀ x, x ∈ c :: seen ↔ x ∈ A ∨ x ∈ c :: stack := by
        intro x
        simp only [List.mem_cons, hseen x]
        tauto
      simpa [pushChildren, hc] using ih (c :: stack) (c :: seen) hnd' hseen'

theorem pushChildren_seen_mem (cs : List NodeIdx) (stack seen : List NodeIdx) :
    ∀ x, x ∈ (pushChildren cs stack seen).2 ↔ x ∈ seen ∨ x ∈ cs := by
  induction cs generalizing stack seen with
  | nil =>
    intro x
    show x ∈ seen ↔ x ∈ seen ∨ x ∈ ([] : List NodeIdx)
    simp
  | cons c rest ih =>
    intro x
    by_cases hc : c ∈ seen
    · have heq : pushChildren (c :: rest) stack seen = pushChildren rest stack seen := by
        rw [pushChildren, if_pos hc]
      rw [heq, ih]
      constructor
      · rintro (h | h)
        · exact Or.inl h
        · exact Or.inr (List.mem_cons_of_mem _ h)
      · rintro (h | h)
        · exact Or.inl h
        · rcases List.mem_cons.mp h with rfl | h
          · exact Or.inl hc
          · exact Or.inr h
    · have heq : pushChildren (c :: rest) stack seen
          = pushChildren rest (c :: stack) (c :: seen) := by
        rw [pushChildren, if_neg hc]
      rw [heq, ih]
      simp only [List.mem_cons]
      tauto

theorem sdfs_step_inv {g : Graph} {start node : NodeIdx}
    {rest seen visit cs : List NodeIdx}
    (hinv : SInv g start (node :: rest) seen visit)
    (hget : g.get node = some cs) :
    SInv g start (pushChildren cs rest seen).1 (pushChildren cs rest seen).2
      (visit ++ [node]) := by
  obtain ⟨hnd, hseen, hreach, hkids, hstart⟩ := hinv
  have hnd' : ((visit ++ [node]) ++ rest).Nodup := by
    rw [List.append_assoc, List.singleton_append]
    exact hnd
  have hseen' : ∀ x, x ∈ seen ↔ x ∈ visit ++ [node] ∨ x ∈ rest := by
    intro x
    rw [hseen x]
    simp only [List.mem_append, List.mem_singleton, List.mem_cons]
    tauto
  have hmain := pushChildren_seen_nodup cs rest seen (visit ++ [node]) hnd' hseen'
  have hmem := pushChildren_seen_mem cs rest seen
  have hreach_node : Reach g start node :=
    hreach node ((hseen node).mpr (Or.inr (List.mem_cons_self node rest)))
  refine ⟨hmain.1, hmain.2, ?_, ?_, ?_⟩
  · intro x hx
    rcases (hmem x).mp hx with h | h
    · exact hreach x h
    · exact Relation.ReflTransGen.tail hreach_node ⟨cs, hget, h⟩
  · intro v hv csv hgetv c hc
    rcases List.mem_append.mp hv with hv | hv
    · exact (hmem c).mpr (Or.inl (hkids v hv csv hgetv c hc))
    · have : v = node := List.mem_singleton.mp hv
      subst this
      rw [hget] at hgetv
      cases hgetv
      exact (hmem c).mpr (Or.inr hc)
  · exact (hmem start).mpr (Or.inl hstart)

/-- The termination measure of the §4.2 traversal. -/
def sMeasure (g : Graph) (stack seen : List NodeIdx) : Nat :=
  stack.length + 2 * ((g.keys.dedup.filter (fun x => x ∉ seen)).length)

theorem filter_not_mem_cons_length {univ seen : List NodeIdx} {c : NodeIdx}
    (hnd : univ.Nodup) (hcu : c ∈ univ) (hcs : c ∉ seen) :
    (univ.filter (fun x => x ∉ seen)).length
      = (univ.filter (fun x => x ∉ c :: seen)).length + 1 := by
  induction univ with
  | nil => exact absurd hcu (List.not_mem_nil c)
  | cons a l ih =>
    have hal : a ∉ l := (List.nodup_cons.mp hnd).1
    have hndl : l.Nodup := (List.nodup_cons.mp hnd).2
    by_cases hac : a = c
    · subst hac
      have h1 : (a :: l).filter (fun x => x ∉ seen)
          = a :: l.filter (fun x => x ∉ seen) := by
        rw [List.filter_cons]
        simp [hcs]
      have h2 : (a :: l).filter (fun x => x ∉ a :: seen)
          = l.filter (fun x => x ∉ a :: seen) := by
        rw [List.filter_cons]
        simp
      have h3 : l.filter (fun x => x ∉ a :: seen) = l.filter (fun x => x ∉ seen) := by
        apply List.filter_congr
        intro x hx
        have hxa : x ≠ a := fun h => hal (h ▸ hx)
        simp [List.mem_cons, hxa]
      rw [h1, h2, h3, List.length_cons]
    · have hcl : c ∈ l := by
        rcases List.mem_cons.mp hcu with h | h
        · exact absurd h.symm hac
        · exact h
      have hrec := ih hndl hcl
      by_cases has : a ∈ seen
      · have h1 : (a :: l).filter (fun x => x ∉ seen)
            = l.filter (fun x => x ∉ seen) := by
          rw [List.filter_cons]
          simp [has]
        have h2 : (a :: l).filter (fun x => x ∉ c :: seen)
            = l.filter (fun x => x ∉ c :: seen) := by
          rw [List.filter_cons]
          simp [List.mem_cons, has]
        rw [h1, h2, hrec]
      · have h1 : (a :: l).filter (fun x => x ∉ seen)
            = a :: l.filter (fun x => x ∉ seen) := by
          rw [List.filter_cons]
          simp [has]
        have h2 : (a :: l).filter (fun x => x ∉ c :: seen)
            = a :: l.filter (fun x => x ∉ c :: seen) := by
          rw [List.filter_cons]
          simp [List.mem_cons, hac, has]
        rw [h1, h2, List.length_cons, List.length_cons, hrec]

theorem pushChildren_measure (g : Graph) (cs : List NodeIdx) (stack seen : List NodeIdx)
    (hcs : ∀ c ∈ cs, c ∈ g.keys) :
    sMeasure g (pushChildren cs stack seen).1 (pushChildren cs stack seen).2
      ≤ sMeasure g stack seen := by
  induction cs generalizing stack seen with
  | nil => exact Nat.le_refl _
  | cons c rest ih =>
    have hcrest : ∀ x ∈ rest, x ∈ g.keys := fun x hx => hcs x (List.mem_cons_of_mem _ hx)
    by_cases hc : c ∈ seen
    · rw [pushChildren, if_pos hc]
      exact ih stack seen hcrest
    · rw [pushChildren, if_neg hc]
      refine Nat.le_trans (ih (c :: stack) (c :: seen) hcrest) ?_
      unfold sMeasure
      have hcu : c ∈ g.keys.dedup := List.mem_dedup.mpr (hcs c (List.mem_cons_self c rest))
      rw [filter_not_mem_cons_length g.keys.nodup_dedup hcu hc]
      simp only [List.length_cons]
      omega

theorem sdfs_run {g : Graph} {start : NodeIdx} (hcl : Closed g [start]) :
    ∀ fuel stack seen visit,
      SInv g start stack seen visit →
      sMeasure g stack seen < fuel →
      ∃ seenF ext, sdfsAux g fuel stack seen visit = .ok (visit ++ ext)
        ∧ SInv g start [] seenF (visit ++ ext) := by
  intro fuel
  induction fuel with
  | zero =>
    intro stack seen visit _ hlt
    exact absurd hlt (Nat.not_lt_zero _)
  | succ fuel ih =>
    intro stack seen visit hinv hlt
    match stack with
    | [] =>
      refine ⟨seen, [], ?_, ?_⟩
      · simp [sdfsAux]
      · simpa using hinv
    | node :: rest =>
      have hnode_seen : node ∈ seen :=
        (hinv.2.1 node).mpr (Or.inr (List.mem_cons_self node rest))
      have hreach_node : Reach g start node := hinv.2.2.1 node hnode_seen
      have hsome : (g.get node).isSome :=
        reach_isSome hcl (List.mem_singleton.mpr rfl) hreach_node
      match hget : g.get node with
      | none => rw [hget] at hsome; exact absurd hsome (by simp)
      | some cs =>
        have hinv' := sdfs_step_inv hinv hget
        have hcs : ∀ c ∈ cs, c ∈ g.keys := by
          intro c hc
          exact mem_keys_of_isSome (child_isSome hcl hget hc)
        have hmeas : sMeasure g (pushChildren cs rest seen).1
            (pushChildren cs rest seen).2 < fuel := by
          have h1 := pushChildren_measure g cs rest seen hcs
          have h2 : sMeasure g rest seen + 1 = sMeasure g (node :: rest) seen := by
            unfold sMeasure
            simp only [List.length_cons]
            omega
          omega
        obtain ⟨seenF, ext, hrun, hfin⟩ :=
          ih (pushChildren cs rest seen).1 (pushChildren cs rest seen).2
            (visit ++ [node]) hinv' hmeas
        refine ⟨seenF, node :: ext, ?_, ?_⟩
        · rw [sdfsAux, hget]
          simpa [List.append_assoc] using hrun
        · simpa [List.append_assoc] using hfin

/-- C2: Modelled from the spec (§4.2): for every graph and single start key
with all referenced keys resolving, the single-start visit-once DFS terminates
and returns a sequence with no duplicate keys, whose first element is the
start, and whose elements are exactly the keys reachable from the start via
the children relation. -/
theorem single_dfs_visit_once (g : Graph) (start : NodeIdx)
    (hcl : Closed g [start]) :
    ∃ fuel visit, single_start_dfs g start fuel = .ok visit
      ∧ visit.Nodup
      ∧ visit.head? = some start
      ∧ ∀ x, x ∈ visit ↔ Reach g start x := by
  have hinv0 : SInv g start [start] [start] [] := by
    refine ⟨by simp, ?_, ?_, ?_, List.mem_singleton.mpr rfl⟩
    · intro x
      simp
    · intro x hx
      rw [List.mem_singleton.mp hx]
      exact Relation.ReflTransGen.refl
    · intro v hv
      exact absurd hv (List.not_mem_nil v)
  have hsome := hcl.1 start (List.mem_singleton.mpr rfl)
  match hget : g.get start with
  | none => rw [hget] at hsome; exact absurd hsome (by simp)
  | some cs =>
    have hinv1 : SInv g start (pushChildren cs [] [start]).1
        (pushChildren cs [] [start]).2 ([] ++ [start]) := sdfs_step_inv hinv0 hget
    rw [List.nil_append] at hinv1
    obtain ⟨seenF, ext, hrun, hfin⟩ :=
      sdfs_run hcl (sMeasure g (pushChildren cs [] [start]).1 (pushChildren cs [] [start]).2 + 1)
        (pushChildren cs [] [start]).1 (pushChildren cs [] [start]).2 [start] hinv1
        (Nat.lt_succ_self _)
    obtain ⟨hnd, hseen, hreach, hkids, hstart⟩ := hfin
    have hext_eq : ∀ x, x ∈ [start] ++ ext ↔ x ∈ seenF := by
      intro x
      rw [hseen x]
      simp
    refine ⟨sMeasure g (pushChildren cs [] [start]).1 (pushChildren cs [] [start]).2 + 2,
      [start] ++ ext, ?_, ?_, ?_, ?_⟩
    · show sdfsAux g _ [start] [start] [] = _
      rw [sdfsAux, hget]
      exact hrun
    · simpa using hnd
    · simp
    · intro x
      rw [hext_eq x]
      constructor
      · intro hx
        exact hreach x hx
      · intro hx
        induction hx with
        | refl => exact hstart
        | tail hr hstep ihr =>
          obtain ⟨csb, hgetb, hc⟩ := hstep
          rename_i b _
          have hb : b ∈ [start] ++ ext := (hext_eq b).mpr ihr
          exact hkids b hb csb hgetb _ hc

theorem single_dfs_visit_once_witness :
    Closed gLine [0]
    ∧ ∃ fuel visit, single_start_dfs gLine 0 fuel = .ok visit
      ∧ visit.Nodup
      ∧ visit.head? = some 0
      ∧ ∀ x, x ∈ visit ↔ Reach gLine 0 x :=
  ⟨by decide, single_dfs_visit_once gLine 0 (by decide)⟩

/-! ### Termination of the multi-start DFS on acyclic inputs (C10) -/

/-- A finite superset of everything reachable from `starts`. -/
def univList (g : Graph) (starts : List NodeIdx) : List NodeIdx :=
  starts ++ g.keys ++ g.nodes.flatMap (fun p => p.2)

theorem reachFrom_mem_univ {g : Graph} {starts : List NodeIdx} {x : NodeIdx}
    (h : ReachFrom g starts x) : x ∈ univList g starts := by
  obtain ⟨a, ha, hr⟩ := h
  induction hr with
  | refl =>
    unfold univList
    exact List.mem_append.mpr (Or.inl (List.mem_append.mpr (Or.inl ha)))
  | tail _ hstep _ =>
    obtain ⟨cs, hget, hc⟩ := hstep
    unfold univList
    refine List.mem_append.mpr (Or.inr ?_)
    exact List.mem_flatMap.mpr ⟨_, get_mem hget, hc⟩

theorem reachFrom_child {g : Graph} {starts : List NodeIdx} {v c : NodeIdx}
    (hv : ReachFrom g starts v) (hvc : childRel g v c) : ReachFrom g starts c := by
  obtain ⟨a, ha, hr⟩ := hv
  exact ⟨a, ha, Relation.ReflTransGen.tail hr hvc⟩

theorem reachFrom_transGen {g : Graph} {starts : List NodeIdx} {v u : NodeIdx}
    (hv : ReachFrom g starts v) (h : Relation.TransGen (childRel g) v u) :
    ReachFrom g starts u := by
  obtain ⟨a, ha, hr⟩ := hv
  exact ⟨a, ha, Relation.ReflTransGen.trans hr h.to_reflTransGen⟩

/-- On an acyclic reachable subgraph there is a natural-number rank that
strictly drops along every edge out of a reachable node. -/
theorem exists_rank {g : Graph} {starts : List NodeIdx} (hac : AcyclicFrom g starts) :
    ∃ rank : NodeIdx → Nat,
      ∀ v c, ReachFrom g starts v → childRel g v c → rank c < rank v := by
  classical
  refine ⟨fun x => Set.ncard {u | Relation.TransGen (childRel g) x u}, ?_⟩
  intro v c hv hvc
  have hfin : {u | Relation.TransGen (childRel g) v u}.Finite := by
    apply Set.Finite.subset (List.finite_toSet (univList g starts))
    intro u hu
    exact reachFrom_mem_univ (reachFrom_transGen hv hu)
  have hsub : {u | Relation.TransGen (childRel g) c u}
      ⊆ {u | Relation.TransGen (childRel g) v u} :=
    fun u hu => Relation.TransGen.head hvc hu
  have hcv : c ∈ {u | Relation.TransGen (childRel g) v u} := Relation.TransGen.single hvc
  have hcc : c ∉ {u | Relation.TransGen (childRel g) c u} :=
    hac c (reachFrom_child hv hvc)
  exact Set.ncard_lt_ncard ⟨hsub, fun hts => hcc (hts hcv)⟩ hfin

/-- Maximum out-degree of the arena's payloads. -/
def maxDeg (g : Graph) : Nat :=
  (g.nodes.map (fun p => p.2.length)).foldr max 0

theorem le_foldr_max {l : List Nat} {a : Nat} (h : a ∈ l) : a ≤ l.foldr max 0 := by
  induction l with
  | nil => exact absurd h (List.not_mem_nil a)
  | cons b l ih =>
    rcases List.mem_cons.mp h with rfl | h
    · exact Nat.le_max_left _ _
    · exact Nat.le_trans (ih h) (Nat.le_max_right _ _)

theorem length_le_maxDeg {g : Graph} {v : NodeIdx} {cs : List NodeIdx}
    (h : g.get v = some cs) : cs.length ≤ maxDeg g :=
  le_foldr_max (List.mem_map.mpr ⟨(v, cs), get_mem h, rfl⟩)

theorem pushChildren_weight_sum (w : NodeIdx → Nat) (cs stack ins : List NodeIdx) :
    ((pushChildren cs stack ins).1.map w).sum ≤ (stack.map w).sum + (cs.map w).sum := by
  induction cs generalizing stack ins with
  | nil => simp [pushChildren]
  | cons c rest ih =>
    by_cases hc : c ∈ ins
    · have heq : pushChildren (c :: rest) stack ins = pushChildren rest stack ins := by
        rw [pushChildren, if_pos hc]
      rw [heq]
      have := ih stack ins
      simp only [List.map_cons, List.sum_cons]
      omega
    · have heq : pushChildren (c :: rest) stack ins
          = pushChildren rest (c :: stack) (c :: ins) := by
        rw [pushChildren, if_neg hc]
      rw [heq]
      have := ih (c :: stack) (c :: ins)
      simp only [List.map_cons, List.sum_cons] at this ⊢
      omega

theorem pushChildren_stack_mem {cs stack ins : List NodeIdx} {x : NodeIdx}
    (h : x ∈ (pushChildren cs stack ins).1) : x ∈ stack ∨ x ∈ cs := by
  induction cs generalizing stack ins with
  | nil => exact Or.inl h
  | cons c rest ih =>
    by_cases hc : c ∈ ins
    · rw [pushChildren, if_pos hc] at h
      rcases ih h with h | h
      · exact Or.inl h
      · exact Or.inr (List.mem_cons_of_mem _ h)
    · rw [pushChildren, if_neg hc] at h
      rcases ih h with h | h
      · rcases List.mem_cons.mp h with rfl | h
        · exact Or.inr (List.mem_cons_self _ _)
        · exact Or.inl h
      · exact Or.inr (List.mem_cons_of_mem _ h)

theorem dfs_terminates_aux {g : Graph} {starts : List NodeIdx} (rank : NodeIdx → Nat)
    (hrank : ∀ v c, ReachFrom g starts v → childRel g v c → rank c < rank v) :
    ∀ fuel stack ins visit,
      (∀ v ∈ stack, ReachFrom g starts v) →
      (stack.map (fun v => (maxDeg g + 1) ^ (rank v + 1))).sum < fuel →
      dfsAux g fuel stack ins visit ≠ .fuelOut := by
  intro fuel
  induction fuel with
  | zero =>
    intro stack ins visit _ hlt
    exact absurd hlt (Nat.not_lt_zero _)
  | succ fuel ih =>
    intro stack ins visit hstack hlt
    match stack with
    | [] => simp [dfsAux]
    | node :: rest =>
      match hget : g.get node with
      | none =>
        have hstep : dfsStep g (node :: rest) ins visit = none := by
          simp [dfsStep, hget]
        simp [dfsAux, hstep]
      | some cs =>
        have hstep : dfsStep g (node :: rest) ins visit
            = some ((pushChildren cs rest (removeSet node ins)).1,
                (pushChildren cs rest (removeSet node ins)).2, visit ++ [node]) := by
          simp [dfsStep, hget]
        have hreach_node : ReachFrom g starts node :=
          hstack node (List.mem_cons_self node rest)
        have hstack' : ∀ v ∈ (pushChildren cs rest (removeSet node ins)).1,
            ReachFrom g starts v := by
          intro v hv
          rcases pushChildren_stack_mem hv with h | h
          · exact hstack v (List.mem_cons_of_mem _ h)
          · exact reachFrom_child hreach_node ⟨cs, hget, h⟩
        have hpot : ((pushChildren cs rest (removeSet node ins)).1.map
            (fun v => (maxDeg g + 1) ^ (rank v + 1))).sum < fuel := by
          set M := maxDeg g with hM
          set w := fun v => (M + 1) ^ (rank v + 1) with hw
          have h1 := pushChildren_weight_sum w cs rest (removeSet node ins)
          have h2 : (cs.map w).sum ≤ cs.length * (M + 1) ^ rank node := by
            have hb : ∀ x ∈ cs.map w, x ≤ (M + 1) ^ rank node := by
              intro x hx
              obtain ⟨c, hc, rfl⟩ := List.mem_map.mp hx
              have hlt' : rank c < rank node := hrank node c hreach_node ⟨cs, hget, hc⟩
              have : rank c + 1 ≤ rank node := hlt'
              calc w c = (M + 1) ^ (rank c + 1) := rfl
                _ ≤ (M + 1) ^ rank node :=
                    Nat.pow_le_pow_right (Nat.succ_le_succ (Nat.zero_le M)) this
            have := List.sum_le_card_nsmul (cs.map w) ((M + 1) ^ rank node) hb
            simpa [smul_eq_mul, List.length_map] using this
          have h3 : cs.length * (M + 1) ^ rank node ≤ M * (M + 1) ^ rank node :=
            Nat.mul_le_mul_right _ (length_le_maxDeg hget)
          have h4 : (M + 1) ^ (rank node + 1) = (M + 1) ^ rank node * (M + 1) := pow_succ _ _
          have h5 : 1 ≤ (M + 1) ^ rank node :=
            Nat.one_le_pow _ _ (Nat.succ_pos M)
          have h6 : ((node :: rest).map w).sum = w node + (rest.map w).sum := by
            simp
          have h7 : w node = (M + 1) ^ (rank node + 1) := rfl
          have h8 : (M + 1) ^ rank node * (M + 1)
              = M * (M + 1) ^ rank node + (M + 1) ^ rank node := by ring
          simp only [List.sum_cons, List.map_cons] at hlt
          have h9 : w node = M * (M + 1) ^ rank node + (M + 1) ^ rank node :=
            h7.trans (h4.trans h8)
          have h10 : (cs.map w).sum ≤ M * (M + 1) ^ rank node := le_trans h2 h3
          obtain ⟨B, hB⟩ : ∃ B, M * (M + 1) ^ rank node = B := ⟨_, rfl⟩
          rw [hB] at h9 h10
          omega
        have : dfsAux g (fuel + 1) (node :: rest) ins visit
            = dfsAux g fuel (pushChildren cs rest (removeSet node ins)).1
                (pushChildren cs rest (removeSet node ins)).2 (visit ++ [node]) := by
          simp [dfsAux, hstep]
        rw [this]
        exact ih _ _ _ hstack' hpot

theorem gCycle_loop :
    ∀ fuel visit, dfsAux gCycle fuel [0] [0] visit = .fuelOut
      ∧ dfsAux gCycle fuel [1] [1] visit = .fuelOut := by
  intro fuel
  induction fuel with
  | zero => exact fun visit => ⟨rfl, rfl⟩
  | succ fuel ih =>
    intro visit
    constructor
    · have hstep : dfsStep gCycle [0] [0] visit = some ([1], [1], visit ++ [0]) := rfl
      rw [dfsAux, hstep]
      exact (ih (visit ++ [0])).2
    · have hstep : dfsStep gCycle [1] [1] visit = some ([0], [0], visit ++ [1]) := rfl
      rw [dfsAux, hstep]
      exact (ih (visit ++ [1])).1

/-- C10: the multi-start DFS terminates (returning normally or faulting, never
running out of fuel at every bound) on every finite graph whose reachable
subgraph is acyclic, but on the two-node cycle 0 → 1 → 0 it runs forever:
every fuel bound is exhausted. -/
theorem dfs_termination_dichotomy :
    (∀ (g : Graph) (starts : List NodeIdx), AcyclicFrom g starts →
      ∃ fuel, depth_first_search g starts fuel ≠ .fuelOut)
    ∧ ∀ fuel, depth_first_search gCycle [0] fuel = .fuelOut := by
  constructor
  · intro g starts hac
    obtain ⟨rank, hrank⟩ := exists_rank hac
    refine ⟨(starts.reverse.map (fun v => (maxDeg g + 1) ^ (rank v + 1))).sum + 1, ?_⟩
    apply dfs_terminates_aux rank hrank
    · intro v hv
      exact ⟨v, List.mem_reverse.mp hv, Relation.ReflTransGen.refl⟩
    · exact Nat.lt_succ_self _
  · intro fuel
    exact (gCycle_loop fuel []).1

theorem dfs_termination_dichotomy_witness :
    AcyclicFrom gSolo [0]
    ∧ ∃ fuel, depth_first_search gSolo [0] fuel ≠ .fuelOut := by
  have hnochild : ∀ a b : NodeIdx, ¬ childRel gSolo a b := by
    rintro a b ⟨cs, hget, hb⟩
    by_cases h : a = 0
    · subst h
      have : cs = [] := by
        have : gSolo.get 0 = some [] := rfl
        rw [this] at hget
        exact (Option.some.injEq _ _).mp hget.symm
      subst this
      exact absurd hb (List.not_mem_nil b)
    · obtain ⟨n, rfl⟩ := Nat.exists_eq_succ_of_ne_zero h
      have : gSolo.get (n + 1) = none := rfl
      rw [this] at hget
      exact absurd hget (by simp)
  have hac : AcyclicFrom gSolo [0] := by
    intro v _ htg
    cases htg with
    | single h => exact hnochild _ _ h
    | tail _ h => exact hnochild _ _ h
  exact ⟨hac, dfs_termination_dichotomy.1 gSolo [0] hac⟩

/-! ### Dependency order: map lemmas and helpers (towards C1 and C9) -/

/-- Whether a key is tracked by the pending-children map. -/
def pmem (x : NodeIdx) (P : PMap) : Bool :=
  (pLookup x P).isSome

theorem pLookup_cons {x a : NodeIdx} {n : Nat} {rest : PMap} :
    pLookup x ((a, n) :: rest) = if a = x then some n else pLookup x rest := by
  unfold pLookup
  rw [List.find?_cons]
  by_cases h : a = x
  · have hb : (((a, n) : NodeIdx × Nat).1 == x) = true := by simpa using h
    rw [hb, if_pos h]
    rfl
  · have hb : (((a, n) : NodeIdx × Nat).1 == x) = false := by simpa using h
    rw [hb, if_neg h]

theorem pLookup_pInsert_self {k : NodeIdx} {v : Nat} {P : PMap} :
    pLookup k (pInsert k v P) = some v := by
  unfold pInsert
  rw [pLookup_cons, if_pos rfl]

theorem pLookup_pInsert_ne {x k : NodeIdx} {v : Nat} {P : PMap} (h : x ≠ k) :
    pLookup x (pInsert k v P) = pLookup x P := by
  unfold pInsert
  rw [pLookup_cons, if_neg (fun hh => h hh.symm)]

theorem pDec_lookup_ne {x k : NodeIdx} {P : PMap} (h : x ≠ k) :
    pLookup x (pDec k P) = pLookup x P := by
  induction P with
  | nil => rfl
  | cons e rest ih =>
    match e with
    | (a, n) =>
      by_cases ha : a = k
      · subst ha
        rw [pDec, if_pos rfl, pLookup_cons, pLookup_cons]
        rw [if_neg (fun hh => h hh.symm), if_neg (fun hh => h hh.symm)]
      · rw [pDec, if_neg ha, pLookup_cons, pLookup_cons]
        by_cases hax : a = x
        · rw [if_pos hax, if_pos hax]
        · rw [if_neg hax, if_neg hax, ih]

theorem pDec_lookup_self {k : NodeIdx} {n : Nat} {P : PMap}
    (h : pLookup k P = some n) : pLookup k (pDec k P) = some (n - 1) := by
  induction P with
  | nil => exact absurd h (by simp [pLookup])
  | cons e rest ih =>
    match e with
    | (a, m) =>
      by_cases ha : a = k
      · subst ha
        rw [pLookup_cons, if_pos rfl] at h
        rw [pDec, if_pos rfl, pLookup_cons, if_pos rfl]
        rw [Option.some.injEq] at h
        rw [h]
      · rw [pLookup_cons, if_neg ha] at h
        rw [pDec, if_neg ha, pLookup_cons, if_neg ha]
        exact ih h

theorem pDec_lookup_none {x k : NodeIdx} {P : PMap}
    (h : pLookup x P = none) : pLookup x (pDec k P) = none := by
  induction P with
  | nil => rfl
  | cons e rest ih =>
    match e with
    | (a, m) =>
      by_cases ha : a = x
      · subst ha
        rw [pLookup_cons, if_pos rfl] at h
        exact absurd h (by simp)
      · rw [pLookup_cons, if_neg ha] at h
        by_cases hak : a = k
        · subst hak
          rw [pDec, if_pos rfl, pLookup_cons, if_neg ha]
          exact h
        · rw [pDec, if_neg hak, pLookup_cons, if_neg ha]
          exact ih h

theorem pmem_pDec {x k : NodeIdx} {P : PMap} : pmem x (pDec k P) = pmem x P := by
  unfold pmem
  by_cases h : x = k
  · subst h
    cases hp : pLookup x P with
    | none => simp [pDec_lookup_none hp, hp]
    | some n => simp [pDec_lookup_self hp, hp]
  · rw [pDec_lookup_ne h]

theorem pmem_pInsert {x k : NodeIdx} {v : Nat} {P : PMap} :
    pmem x (pInsert k v P) = true ↔ x = k ∨ pmem x P = true := by
  by_cases h : x = k
  · subst h
    simp [pmem, pLookup_pInsert_self]
  · rw [pmem, pLookup_pInsert_ne h]
    simp [pmem, h]

theorem exists_first_split {α : Type} (p : α → Prop) [DecidablePred p] :
    ∀ (l : List α), (∃ e ∈ l, p e) →
      ∃ l1 e l2, l = l1 ++ e :: l2 ∧ p e ∧ ∀ e' ∈ l1, ¬ p e' := by
  intro l
  induction l with
  | nil =>
    rintro ⟨e, he, _⟩
    exact absurd he (List.not_mem_nil e)
  | cons a t ih =>
    intro hex
    by_cases ha : p a
    · exact ⟨[], a, t, rfl, ha, fun e' he' => absurd he' (List.not_mem_nil e')⟩
    · obtain ⟨e, he, hpe⟩ := hex
      have het : e ∈ t := by
        rcases List.mem_cons.mp he with rfl | h
        · exact absurd hpe ha
        · exact h
      obtain ⟨l1, e', l2, heq, hpe', hfree⟩ := ih ⟨e, het, hpe⟩
      refine ⟨a :: l1, e', l2, by rw [heq]; rfl, hpe', ?_⟩
      intro x hx
      rcases List.mem_cons.mp hx with rfl | hx
      · exact ha
      · exact hfree x hx

theorem filter_length_flip {l : List NodeIdx} {p q : NodeIdx → Bool} {c : NodeIdx}
    (hnd : l.Nodup) (hc : c ∈ l) (hpc : p c = true) (hqc : q c = false)
    (hagree : ∀ x ∈ l, x ≠ c → p x = q x) :
    (l.filter p).length = (l.filter q).length + 1 := by
  induction l with
  | nil => exact absurd hc (List.not_mem_nil c)
  | cons a t ih =>
    have hat : a ∉ t := (List.nodup_cons.mp hnd).1
    have hndt : t.Nodup := (List.nodup_cons.mp hnd).2
    by_cases hac : a = c
    · subst hac
      have h3 : t.filter p = t.filter q := by
        apply List.filter_congr
        intro x hx
        exact hagree x (List.mem_cons_of_mem _ hx) (fun h => hat (h ▸ hx))
      rw [List.filter_cons, List.filter_cons, hpc, hqc]
      simp [h3]
    · have hct : c ∈ t := by
        rcases List.mem_cons.mp hc with h | h
        · exact absurd h.symm hac
        · exact h
      have hrec := ih hndt hct (fun x hx hxc => hagree x (List.mem_cons_of_mem _ hx) hxc)
      have hpq : p a = q a := hagree a (List.mem_cons_self a t) hac
      rw [List.filter_cons, List.filter_cons, ← hpq]
      by_cases hpa : p a = true
      · rw [hpa]
        simp [hrec]
      · rw [Bool.not_eq_true] at hpa
        rw [hpa]
        simp [hrec]

theorem filter_length_mono {l : List NodeIdx} {p q : NodeIdx → Bool}
    (h : ∀ x ∈ l, q x = true → p x = true) :
    (l.filter q).length ≤ (l.filter p).length := by
  induction l with
  | nil => exact Nat.le_refl _
  | cons a t ih =>
    have hrec := ih (fun x hx => h x (List.mem_cons_of_mem _ hx))
    rw [List.filter_cons, List.filter_cons]
    by_cases hqa : q a = true
    · rw [hqa, h a (List.mem_cons_self a t) hqa]
      simpa using hrec
    · rw [Bool.not_eq_true] at hqa
      rw [hqa]
      by_cases hpa : p a = true
      · rw [hpa]
        simp
        omega
      · rw [Bool.not_eq_true] at hpa
        rw [hpa]
        simpa using hrec

theorem countP_not_add (p : NodeIdx → Bool) (l : List NodeIdx) :
    l.countP p + l.countP (fun a => !(p a)) = l.length := by
  induction l with
  | nil => rfl
  | cons a t ih =>
    rw [List.countP_cons, List.countP_cons, List.length_cons]
    by_cases h : p a = true
    · simp [h]
      omega
    · rw [Bool.not_eq_true] at h
      simp [h]
      omega

/-- Specification of the child-expansion fold of `dependency_order`: under the
precondition that every already-tracked child has counter 0, the fold succeeds
(no `assert_eq!` failure), pushes one new edge `{parent := node, child := c}`
per untracked child occurrence, leaves every key's membership unchanged, and
decrements `node`'s counter once per already-tracked child occurrence. -/
theorem expand_spec (node : NodeIdx) :
    ∀ (cs : List NodeIdx) (stack0 : List Edge) (P0 : PMap),
      (∀ c ∈ cs, c ≠ node) →
      (∀ c ∈ cs, pmem c P0 = true → pLookup c P0 = some 0) →
      ∃ Sp P',
        expand node cs stack0 P0 = some (Sp ++ stack0, P')
        ∧ (∀ e ∈ Sp, e.parent = some node ∧ e.child ∈ cs ∧ pmem e.child P0 = false)
        ∧ (∀ c ∈ cs, pmem c P0 = false → ∃ e ∈ Sp, e.child = c)
        ∧ Sp.length = cs.countP (fun c => !(pmem c P0))
        ∧ (∀ x, pmem x P' = pmem x P0)
        ∧ (∀ x, x ≠ node → pLookup x P' = pLookup x P0)
        ∧ (∀ k0, pLookup node P0 = some k0 →
            pLookup node P' = some (k0 - cs.countP (fun c => pmem c P0))) := by
  intro cs
  induction cs with
  | nil =>
    intro stack0 P0 _ _
    refine ⟨[], P0, by simp [expand], ?_, ?_, by simp, fun x => rfl, fun x _ => rfl, ?_⟩
    · intro e he
      exact absurd he (List.not_mem_nil e)
    · intro c hc
      exact absurd hc (List.not_mem_nil c)
    · intro k0 h
      simpa using h
  | cons c rest ih =>
    intro stack0 P0 hnode hzero
    have hcn : c ≠ node := hnode c (List.mem_cons_self c rest)
    by_cases hm : pmem c P0 = true
    · have hz : pLookup c P0 = some 0 := hzero c (List.mem_cons_self c rest) hm
      have hstep : expand node (c :: rest) stack0 P0
          = expand node rest stack0 (pDec node P0) := by
        rw [expand, hz]
        simp
      have hnode' : ∀ x ∈ rest, x ≠ node := fun x hx => hnode x (List.mem_cons_of_mem _ hx)
      have hzero' : ∀ x ∈ rest, pmem x (pDec node P0) = true →
          pLookup x (pDec node P0) = some 0 := by
        intro x hx hmx
        rw [pmem_pDec] at hmx
        rw [pDec_lookup_ne (hnode' x hx)]
        exact hzero x (List.mem_cons_of_mem _ hx) hmx
      obtain ⟨Sp, P', heq, hmem, hcov, hlen, hpm, hlk, hself⟩ :=
        ih stack0 (pDec node P0) hnode' hzero'
      have hcongr : ∀ (b : Bool) (f : NodeIdx → Bool),
          (∀ x, f x = pmem x (pDec node P0)) → True := fun _ _ _ => trivial
      have hpmP : ∀ x, pmem x (pDec node P0) = pmem x P0 := fun x => pmem_pDec
      refine ⟨Sp, P', by rw [hstep]; exact heq, ?_, ?_, ?_, ?_, ?_, ?_⟩
      · intro e he
        obtain ⟨h1, h2, h3⟩ := hmem e he
        exact ⟨h1, List.mem_cons_of_mem _ h2, by rw [← hpmP]; exact h3⟩
      · intro x hx hmx
        rcases List.mem_cons.mp hx with rfl | hx
        · rw [hm] at hmx
          exact absurd hmx (by simp)
        · exact hcov x hx (by rw [hpmP x]; exact hmx)
      · rw [hlen, List.countP_cons]
        have : (fun x => !(pmem x (pDec node P0))) = fun x => !(pmem x P0) := by
          funext x
          rw [hpmP]
        rw [this]
        simp [hm]
      · intro x
        rw [hpm x, hpmP x]
      · intro x hx
        rw [hlk x hx, pDec_lookup_ne hx]
      · intro k0 hk0
        have hk0' : pLookup node (pDec node P0) = some (k0 - 1) := pDec_lookup_self hk0
        have hfin := hself (k0 - 1) hk0'
        have hcnt : rest.countP (fun x => pmem x (pDec node P0))
            = rest.countP (fun x => pmem x P0) := by
          apply List.countP_congr
          intro x _
          rw [hpmP]
        rw [hcnt] at hfin
        rw [hfin, List.countP_cons]
        simp only [hm, if_true]
        congr 1
        omega
    · have hmf : pmem c P0 = false := by
        rw [Bool.not_eq_true] at hm
        exact hm
      have hlk_none : pLookup c P0 = none := by
        unfold pmem at hmf
        exact Option.not_isSome_iff_eq_none.mp (by rw [hmf]; simp)
      have hstep : expand node (c :: rest) stack0 P0
          = expand node rest ({ parent := some node, child := c } :: stack0) P0 := by
        rw [expand, hlk_none]
      obtain ⟨Sp, P', heq, hmem, hcov, hlen, hpm, hlk, hself⟩ :=
        ih ({ parent := some node, child := c } :: stack0) P0
          (fun x hx => hnode x (List.mem_cons_of_mem _ hx))
          (fun x hx => hzero x (List.mem_cons_of_mem _ hx))
      refine ⟨Sp ++ [{ parent := some node, child := c }], P', ?_, ?_, ?_, ?_, hpm, hlk, ?_⟩
      · rw [hstep, heq]
        simp
      · intro e he
        rcases List.mem_append.mp he with h | h
        · obtain ⟨h1, h2, h3⟩ := hmem e h
          exact ⟨h1, List.mem_cons_of_mem _ h2, h3⟩
        · have : e = { parent := some node, child := c } := List.mem_singleton.mp h
          subst this
          exact ⟨rfl, List.mem_cons_self c rest, hmf⟩
      · intro x hx hmx
        rcases List.mem_cons.mp hx with rfl | hx
        · exact ⟨{ parent := some node, child := x },
            List.mem_append.mpr (Or.inr (List.mem_singleton.mpr rfl)), rfl⟩
        · obtain ⟨e, he, hec⟩ := hcov x hx hmx
          exact ⟨e, List.mem_append.mpr (Or.inl he), hec⟩
      · rw [List.length_append, hlen, List.countP_cons]
        simp [hmf]
      · intro k0 hk0
        rw [hself k0 hk0, List.countP_cons]
        simp [hmf]

/-! ### The dependency-order loop invariant -/

/-- A list is dependency-ordered when every element's children (per the graph)
occur at strictly earlier positions. -/
def DepOrdered (g : Graph) (L : List NodeIdx) : Prop :=
  ∀ (i : Nat) (hi : i < L.length) (c : NodeIdx),
    childRel g (L.get ⟨i, hi⟩) c →
      ∃ (j : Nat) (hj : j < L.length), j < i ∧ L.get ⟨j, hj⟩ = c

theorem DepOrdered.append {g : Graph} {L : List NodeIdx} {w : NodeIdx}
    (h : DepOrdered g L) (hw : ∀ c, childRel g w c → c ∈ L) :
    DepOrdered g (L ++ [w]) := by
  intro i hi c hc
  rw [List.length_append, List.length_singleton] at hi
  by_cases hiL : i < L.length
  · have hget : (L ++ [w]).get ⟨i, by rw [List.length_append, List.length_singleton]; omega⟩
        = L.get ⟨i, hiL⟩ := by
      rw [List.get_eq_getElem, List.get_eq_getElem, List.getElem_append_left]
    rw [hget] at hc
    obtain ⟨j, hj, hji, hjc⟩ := h i hiL c hc
    refine ⟨j, by rw [List.length_append, List.length_singleton]; omega, hji, ?_⟩
    rw [List.get_eq_getElem, List.getElem_append_left]
    rw [List.get_eq_getElem] at hjc
    exact hjc
  · have hieq : i = L.length := by omega
    have hget : (L ++ [w]).get ⟨i, by rw [List.length_append, List.length_singleton]; omega⟩ = w := by
      rw [List.get_eq_getElem]
      exact List.getElem_concat_length L w i hieq _
    rw [hget] at hc
    have hcL := hw c hc
    obtain ⟨⟨j, hj⟩, hjc⟩ := List.mem_iff_get.mp hcL
    refine ⟨j, by rw [List.length_append, List.length_singleton]; omega, by omega, ?_⟩
    rw [List.get_eq_getElem, List.getElem_append_left]
    rw [List.get_eq_getElem] at hjc
    exact hjc

theorem reachFrom_isSome {g : Graph} {starts : List NodeIdx} (hcl : Closed g starts)
    {x : NodeIdx} (h : ReachFrom g starts x) : (g.get x).isSome := by
  obtain ⟨a, ha, hr⟩ := h
  exact reach_isSome hcl ha hr

/-- Count of reachable-universe keys not yet tracked by the pending map. -/
def uCount (g : Graph) (starts : List NodeIdx) (P : PMap) : Nat :=
  ((univList g starts).dedup.filter (fun x => !(pmem x P))).length

/-- The termination measure of `dependency_order`. -/
def depMeasure (g : Graph) (starts : List NodeIdx) (S : List Edge) (P : PMap) : Nat :=
  S.length + (maxDeg g + 1) * uCount g starts P

theorem uCount_congr {g : Graph} {starts : List NodeIdx} {P P' : PMap}
    (h : ∀ x, pmem x P' = pmem x P) : uCount g starts P' = uCount g starts P := by
  unfold uCount
  congr 1
  apply List.filter_congr
  intro x _
  rw [h x]

theorem uCount_mono {g : Graph} {starts : List NodeIdx} {P P' : PMap}
    (h : ∀ x, pmem x P = true → pmem x P' = true) :
    uCount g starts P' ≤ uCount g starts P := by
  apply filter_length_mono
  intro x _ hq
  simp only [Bool.not_eq_true'] at hq ⊢
  by_cases hx : pmem x P = true
  · exact absurd (h x hx) (by rw [hq]; simp)
  · rw [Bool.not_eq_true] at hx
    exact hx

theorem uCount_strict {g : Graph} {starts : List NodeIdx} {P P' : PMap}
    {node : NodeIdx} (hfresh : pmem node P = false) (hnew : pmem node P' = true)
    (hrest : ∀ x, x ≠ node → pmem x P' = pmem x P)
    (hmem : node ∈ univList g starts) :
    uCount g starts P = uCount g starts P' + 1 := by
  unfold uCount
  refine filter_length_flip (univList g starts).nodup_dedup
    (List.mem_dedup.mpr hmem) ?_ ?_ ?_
  · rw [hfresh]
    rfl
  · rw [hnew]
    rfl
  · intro x _ hxc
    rw [hrest x hxc]

/-- The loop invariant of `dependency_order`, over the state
(stack `S`, pending map `P`, visited set `V`, output `L`). -/
structure DepInv (g : Graph) (starts : List NodeIdx) (S : List Edge) (P : PMap)
    (V L : List NodeIdx) : Prop where
  nodupL : L.Nodup
  memL : ∀ x, x ∈ L ↔ x ∈ V
  visited_zero : ∀ x ∈ V, pLookup x P = some 0
  ordered : DepOrdered g L
  opened_reach : ∀ x, pmem x P = true → ReachFrom g starts x
  stack_reach : ∀ e ∈ S, ReachFrom g starts e.child
  stack_parent : ∀ e ∈ S, ∀ p, e.parent = some p → pmem p P = true
  counts : ∀ x, pmem x P = true →
    pLookup x P = some (S.countP (fun e => decide (e.parent = some x)))
  open_edge : ∀ x, pmem x P = true → x ∉ V → ∃ e ∈ S, e.child = x
  above_desc : ∀ x, pmem x P = true → x ∉ V →
    ∀ l1 e l2, S = l1 ++ e :: l2 → e.child = x → (∀ e' ∈ l1, e'.child ≠ x) →
      ∀ e' ∈ l1, Relation.TransGen (childRel g) x e'.child
  below_no_parent : ∀ x, pmem x P = true → x ∉ V →
    ∀ l1 e l2, S = l1 ++ e :: l2 → e.child = x → (∀ e' ∈ l1, e'.child ≠ x) →
      ∀ e' ∈ e :: l2, e'.parent ≠ some x
  opened_get : ∀ x, pmem x P = true → (g.get x).isSome
  children_covered : ∀ x cs, pmem x P = true → g.get x = some cs →
    ∀ c ∈ cs, c ∈ V ∨ ∃ e ∈ S, e.parent = some x ∧ e.child = c
  starts_covered : ∀ s ∈ starts, s ∈ V ∨ ∃ e ∈ S, e.child = s

theorem visited_pmem {g : Graph} {starts : List NodeIdx} {S : List Edge} {P : PMap}
    {V L : List NodeIdx} (hinv : DepInv g starts S P V L) {x : NodeIdx} (hx : x ∈ V) :
    pmem x P = true := by
  unfold pmem
  rw [hinv.visited_zero x hx]
  rfl

/-- The acyclicity argument: when the node at the top of the stack has a child
that is already tracked by the pending map, that child has been emitted. -/
theorem opened_child_visited {g : Graph} {starts : List NodeIdx}
    (hac : AcyclicFrom g starts) {edge : Edge} {rest : List Edge} {P : PMap}
    {V L : List NodeIdx} (hinv : DepInv g starts (edge :: rest) P V L)
    {c : NodeIdx} (hcrel : childRel g edge.child c) (hcne : c ≠ edge.child)
    (hcm : pmem c P = true) : c ∈ V := by
  by_contra hcv
  have hreach_node : ReachFrom g starts edge.child :=
    hinv.stack_reach edge (List.mem_cons_self edge rest)
  obtain ⟨e0, he0, he0c⟩ := hinv.open_edge c hcm hcv
  obtain ⟨l1, e1, l2, heq, he1c, hfree⟩ :=
    exists_first_split (fun e => e.child = c) (edge :: rest) ⟨e0, he0, he0c⟩
  match l1, heq with
  | [], heq =>
    have : edge = e1 := by
      rw [List.nil_append] at heq
      exact (List.cons.injEq _ _ _ _ ▸ heq).1
    exact hcne (by rw [← he1c, ← this])
  | a :: t, heq =>
    have hae : a = edge ∧ rest = t ++ e1 :: l2 := by
      rw [List.cons_append] at heq
      have h1 := (List.cons.injEq _ _ _ _ ▸ heq).1
      have h2 := (List.cons.injEq _ _ _ _ ▸ heq).2
      exact ⟨h1.symm, h2⟩
    have hdesc := hinv.above_desc c hcm hcv (a :: t) e1 l2 heq he1c hfree
    have htg : Relation.TransGen (childRel g) c edge.child := by
      have := hdesc a (List.mem_cons_self a t)
      rw [hae.1] at this
      exact this
    have hcc : Relation.TransGen (childRel g) c c := Relation.TransGen.tail htg hcrel
    exact hac c (reachFrom_child hreach_node hcrel) hcc

/-- A node popped while already tracked always has counter zero: a nonzero
counter would demand an outstanding parent-edge strictly above the topmost
edge for the node, which is the very top of the stack. -/
theorem top_opened_zero {g : Graph} {starts : List NodeIdx} {edge : Edge}
    {rest : List Edge} {P : PMap} {V L : List NodeIdx}
    (hinv : DepInv g starts (edge :: rest) P V L) {n : Nat}
    (hl : pLookup edge.child P = some n) (hn : n ≠ 0) : False := by
  have hm : pmem edge.child P = true := by
    unfold pmem
    rw [hl]
    rfl
  have hnv : edge.child ∉ V := by
    intro hv
    have := hinv.visited_zero _ hv
    rw [hl] at this
    exact hn (by simpa using this)
  have hcnt := hinv.counts edge.child hm
  rw [hl] at hcnt
  have hn' : 0 < (edge :: rest).countP (fun e => decide (e.parent = some edge.child)) := by
    have : n = (edge :: rest).countP (fun e => decide (e.parent = some edge.child)) := by
      simpa using hcnt
    omega
  obtain ⟨e', he', hpe'⟩ := List.countP_pos_iff.mp hn'
  have hpe'' : e'.parent = some edge.child := of_decide_eq_true hpe'
  have := hinv.below_no_parent edge.child hm hnv [] edge rest rfl rfl
    (fun e'' he'' => absurd he'' (List.not_mem_nil e''))
  exact this e' he' hpe''

theorem pmem_pInsert_ne {x k : NodeIdx} {v : Nat} {P : PMap} (h : x ≠ k) :
    pmem x (pInsert k v P) = pmem x P := by
  unfold pmem
  rw [pLookup_pInsert_ne h]

/-- Invariant preservation for the zero-pending (resolution) branch of the
`dependency_order` loop: the popped edge's node is emitted if new, and the
stack shrinks to its tail.  `P₂` is the pending map after the optional
initialization and the optional parent decrement, described abstractly. -/
theorem dep_resolve_inv {g : Graph} {starts : List NodeIdx} {edge : Edge}
    {rest : List Edge} {P : PMap} {V L : List NodeIdx}
    (hinv : DepInv g starts (edge :: rest) P V L) (P₂ : PMap)
    (hpm : ∀ x, pmem x P₂ = true ↔ (x = edge.child ∨ pmem x P = true))
    (hvz : ∀ x, (x = edge.child ∨ x ∈ V) → pLookup x P₂ = some 0)
    (hcnt : ∀ x, pmem x P₂ = true →
        pLookup x P₂ = some (rest.countP (fun e => decide (e.parent = some x))))
    (hF6 : ∀ cs, g.get edge.child = some cs → ∀ c ∈ cs, c ∈ V)
    (hFg : (g.get edge.child).isSome) :
    DepInv g starts rest P₂
      (if edge.child ∈ V then V else edge.child :: V)
      (if edge.child ∈ V then L else L ++ [edge.child]) := by
  have hreach : ReachFrom g starts edge.child :=
    hinv.stack_reach edge (List.mem_cons_self edge rest)
  have hmemV' : ∀ x, x ∈ (if edge.child ∈ V then V else edge.child :: V)
      ↔ (x = edge.child ∨ x ∈ V) := by
    intro x
    by_cases hv : edge.child ∈ V
    · rw [if_pos hv]
      constructor
      · exact Or.inr
      · rintro (rfl | h)
        · exact hv
        · exact h
    · rw [if_neg hv, List.mem_cons]
  have hLnodup : (if edge.child ∈ V then L else L ++ [edge.child]).Nodup := by
    by_cases hv : edge.child ∈ V
    · rw [if_pos hv]
      exact hinv.nodupL
    · rw [if_neg hv]
      have hnl : edge.child ∉ L := fun h => hv ((hinv.memL _).mp h)
      have : (L ++ [edge.child]).Nodup ↔ (edge.child :: (L ++ [])).Nodup :=
        List.nodup_middle
      rw [this, List.append_nil, List.nodup_cons]
      exact ⟨hnl, hinv.nodupL⟩
  refine ⟨hLnodup, ?_, ?_, ?_, ?_, ?_, ?_, hcnt, ?_, ?_, ?_, ?_, ?_, ?_⟩
  · intro x
    rw [hmemV' x]
    by_cases hv : edge.child ∈ V
    · rw [if_pos hv, hinv.memL x]
      constructor
      · exact Or.inr
      · rintro (rfl | h)
        · exact hv
        · exact h
    · rw [if_neg hv, List.mem_append, List.mem_singleton, hinv.memL x]
      tauto
  · intro x hx
    exact hvz x ((hmemV' x).mp hx)
  · by_cases hv : edge.child ∈ V
    · rw [if_pos hv]
      exact hinv.ordered
    · rw [if_neg hv]
      apply hinv.ordered.append
      intro c hc
      obtain ⟨cs, hget, hcmem⟩ := hc
      exact (hinv.memL c).mpr (hF6 cs hget c hcmem)
  · intro x hx
    rcases (hpm x).mp hx with rfl | h
    · exact hreach
    · exact hinv.opened_reach x h
  · intro e he
    exact hinv.stack_reach e (List.mem_cons_of_mem _ he)
  · intro e he p hp
    exact (hpm p).mpr (Or.inr (hinv.stack_parent e (List.mem_cons_of_mem _ he) p hp))
  · intro x hx hxv
    have hxne : x ≠ edge.child := fun h => hxv ((hmemV' x).mpr (Or.inl h))
    have hxV : x ∉ V := fun h => hxv ((hmemV' x).mpr (Or.inr h))
    have hxP : pmem x P = true := by
      rcases (hpm x).mp hx with rfl | h
      · exact absurd rfl hxne
      · exact h
    obtain ⟨e, he, hec⟩ := hinv.open_edge x hxP hxV
    rcases List.mem_cons.mp he with rfl | he
    · exact absurd hec.symm hxne
    · exact ⟨e, he, hec⟩
  · intro x hx hxv l1 e l2 heq hec hfree
    have hxne : x ≠ edge.child := fun h => hxv ((hmemV' x).mpr (Or.inl h))
    have hxV : x ∉ V := fun h => hxv ((hmemV' x).mpr (Or.inr h))
    have hxP : pmem x P = true := by
      rcases (hpm x).mp hx with rfl | h
      · exact absurd rfl hxne
      · exact h
    have heq' : edge :: rest = (edge :: l1) ++ e :: l2 := by
      rw [List.cons_append, heq]
    have hfree' : ∀ e' ∈ edge :: l1, e'.child ≠ x := by
      intro e' he'
      rcases List.mem_cons.mp he' with rfl | he'
      · exact fun h => hxne h.symm
      · exact hfree e' he'
    intro e' he'
    exact hinv.above_desc x hxP hxV (edge :: l1) e l2 heq' hec hfree' e'
      (List.mem_cons_of_mem _ he')
  · intro x hx hxv l1 e l2 heq hec hfree
    have hxne : x ≠ edge.child := fun h => hxv ((hmemV' x).mpr (Or.inl h))
    have hxV : x ∉ V := fun h => hxv ((hmemV' x).mpr (Or.inr h))
    have hxP : pmem x P = true := by
      rcases (hpm x).mp hx with rfl | h
      · exact absurd rfl hxne
      · exact h
    have heq' : edge :: rest = (edge :: l1) ++ e :: l2 := by
      rw [List.cons_append, heq]
    have hfree' : ∀ e' ∈ edge :: l1, e'.child ≠ x := by
      intro e' he'
      rcases List.mem_cons.mp he' with rfl | he'
      · exact fun h => hxne h.symm
      · exact hfree e' he'
    exact hinv.below_no_parent x hxP hxV (edge :: l1) e l2 heq' hec hfree'
  · intro x hx
    rcases (hpm x).mp hx with rfl | h
    · exact hFg
    · exact hinv.opened_get x h
  · intro x cs hx hget c hc
    by_cases hxe : x = edge.child
    · subst hxe
      exact Or.inl ((hmemV' c).mpr (Or.inr (hF6 cs hget c hc)))
    · have hxP : pmem x P = true := by
        rcases (hpm x).mp hx with rfl | h
        · exact absurd rfl hxe
        · exact h
      rcases hinv.children_covered x cs hxP hget c hc with h | ⟨e, he, hep, hec⟩
      · exact Or.inl ((hmemV' c).mpr (Or.inr h))
      · rcases List.mem_cons.mp he with rfl | he
        · exact Or.inl ((hmemV' c).mpr (Or.inl hec.symm))
        · exact Or.inr ⟨e, he, hep, hec⟩
  · intro s hs
    rcases hinv.starts_covered s hs with h | ⟨e, he, hec⟩
    · exact Or.inl ((hmemV' s).mpr (Or.inr h))
    · rcases List.mem_cons.mp he with rfl | he
      · exact Or.inl ((hmemV' s).mpr (Or.inl hec.symm))
      · exact Or.inr ⟨e, he, hec⟩

theorem split_through {Sp S0 l1 l2 : List Edge} {e : Edge}
    (heq : Sp ++ S0 = l1 ++ e :: l2) (hnot : e ∉ Sp) :
    ∃ t, l1 = Sp ++ t ∧ S0 = t ++ e :: l2 := by
  rcases List.append_eq_append_iff.mp heq with ⟨a', ha1, ha2⟩ | ⟨c', hc1, hc2⟩
  · exact ⟨a', ha1, ha2⟩
  · match c', hc2 with
    | [], hc2 =>
      refine ⟨[], ?_, ?_⟩
      · rw [List.append_nil] at hc1
        rw [hc1, List.append_nil]
      · rw [List.nil_append]
        exact hc2.symm
    | x :: t', hc2 =>
      exfalso
      have hx : x = e := by
        rw [List.cons_append] at hc2
        exact ((List.cons.injEq _ _ _ _).mp hc2).1.symm
      subst hx
      exact hnot (hc1 ▸ List.mem_append.mpr (Or.inr (List.mem_cons_self x t')))

/-- Invariant preservation for the nonzero-pending (expansion) branch: the
freshly opened node's edge is re-pushed and one new edge per untracked child
occurrence is pushed above it. -/
theorem dep_expand_inv {g : Graph} {starts : List NodeIdx}
    (hac : AcyclicFrom g starts) {edge : Edge} {rest : List Edge} {P : PMap}
    {V L : List NodeIdx} (hinv : DepInv g starts (edge :: rest) P V L)
    {cs : List NodeIdx} (hget : g.get edge.child = some cs)
    (hfresh : pmem edge.child P = false)
    {Sp : List Edge} {P' : PMap}
    (hSp : ∀ e ∈ Sp, e.parent = some edge.child ∧ e.child ∈ cs ∧ pmem e.child P = false)
    (hcov : ∀ c ∈ cs, pmem c P = false → ∃ e ∈ Sp, e.child = c)
    (hpm' : ∀ x, pmem x P' = true ↔ (x = edge.child ∨ pmem x P = true))
    (hlk' : ∀ x, x ≠ edge.child → pLookup x P' = pLookup x P)
    (hself : pLookup edge.child P' = some Sp.length) :
    DepInv g starts (Sp ++ edge :: rest) P' V L := by
  have hreach : ReachFrom g starts edge.child :=
    hinv.stack_reach edge (List.mem_cons_self edge rest)
  have hnodeV : edge.child ∉ V := by
    intro hv
    have := visited_pmem hinv hv
    rw [hfresh] at this
    exact absurd this (by simp)
  have hchild_ne : ∀ c ∈ cs, c ≠ edge.child := by
    intro c hc h
    subst h
    exact hac edge.child hreach (Relation.TransGen.single ⟨cs, hget, hc⟩)
  have hzeroV : ∀ c ∈ cs, pmem c P = true → c ∈ V := by
    intro c hc hcm
    exact opened_child_visited hac hinv ⟨cs, hget, hc⟩ (hchild_ne c hc) hcm
  have hSpPar : ∀ e ∈ Sp, e.parent = some edge.child := fun e he => (hSp e he).1
  have hold_no_parent : ∀ e ∈ edge :: rest, ¬ (e.parent = some edge.child) := by
    intro e he hp
    have := hinv.stack_parent e he edge.child hp
    rw [hfresh] at this
    exact absurd this (by simp)
  refine ⟨hinv.nodupL, hinv.memL, ?_, hinv.ordered, ?_, ?_, ?_, ?_, ?_, ?_, ?_, ?_, ?_, ?_⟩
  · intro x hx
    have hxne : x ≠ edge.child := fun h => hnodeV (h ▸ hx)
    rw [hlk' x hxne]
    exact hinv.visited_zero x hx
  · intro x hx
    rcases (hpm' x).mp hx with rfl | h
    · exact hreach
    · exact hinv.opened_reach x h
  · intro e he
    rcases List.mem_append.mp he with h | h
    · exact reachFrom_child hreach ⟨cs, hget, (hSp e h).2.1⟩
    · exact hinv.stack_reach e h
  · intro e he p hp
    rcases List.mem_append.mp he with h | h
    · have := (hSp e h).1
      rw [this] at hp
      have : p = edge.child := by
        rw [Option.some.injEq] at hp
        exact hp.symm
      exact (hpm' p).mpr (Or.inl this)
    · exact (hpm' p).mpr (Or.inr (hinv.stack_parent e h p hp))
  · intro x hx
    rw [List.countP_append]
    by_cases hxe : x = edge.child
    · have h1 : Sp.countP (fun e => decide (e.parent = some x)) = Sp.length := by
        rw [List.countP_eq_length]
        intro e he
        simp [hSpPar e he, hxe]
      have h2 : (edge :: rest).countP (fun e => decide (e.parent = some x)) = 0 := by
        rw [List.countP_eq_zero]
        intro e he
        rw [hxe]
        simp [hold_no_parent e he]
      rw [h1, h2, Nat.add_zero, hxe, hself]
    · have hxP : pmem x P = true := by
        rcases (hpm' x).mp hx with rfl | h
        · exact absurd rfl hxe
        · exact h
      have h1 : Sp.countP (fun e => decide (e.parent = some x)) = 0 := by
        rw [List.countP_eq_zero]
        intro e he
        have := hSpPar e he
        simp [this]
        exact fun hh => hxe hh.symm
      rw [h1, Nat.zero_add, hlk' x hxe]
      exact hinv.counts x hxP
  · intro x hx hxv
    by_cases hxe : x = edge.child
    · subst hxe
      exact ⟨edge, List.mem_append.mpr (Or.inr (List.mem_cons_self edge rest)), rfl⟩
    · have hxP : pmem x P = true := by
        rcases (hpm' x).mp hx with rfl | h
        · exact absurd rfl hxe
        · exact h
      obtain ⟨e, he, hec⟩ := hinv.open_edge x hxP hxv
      exact ⟨e, List.mem_append.mpr (Or.inr he), hec⟩
  · intro x hx hxv l1 e l2 heq hec hfree
    by_cases hxe : x = edge.child
    · subst hxe
      have hnot : e ∉ Sp := by
        intro hmem
        exact hchild_ne e.child (hSp e hmem).2.1 hec
      obtain ⟨t, ht1, ht2⟩ := split_through heq hnot
      match t, ht1, ht2 with
      | [], ht1, ht2 =>
        rw [List.append_nil] at ht1
        intro e' he'
        rw [ht1] at he'
        exact Relation.TransGen.single ⟨cs, hget, (hSp e' he').2.1⟩
      | a :: t', ht1, ht2 =>
        exfalso
        rw [List.cons_append] at ht2
        have ha : edge = a := ((List.cons.injEq _ _ _ _).mp ht2).1
        have hmem : a ∈ l1 := by
          rw [ht1]
          exact List.mem_append.mpr (Or.inr (List.mem_cons_self a t'))
        exact hfree a hmem (by rw [← ha])
    · have hxP : pmem x P = true := by
        rcases (hpm' x).mp hx with rfl | h
        · exact absurd rfl hxe
        · exact h
      have hnot : e ∉ Sp := by
        intro hmem
        have := (hSp e hmem).2.2
        rw [hec, hxP] at this
        exact absurd this (by simp)
      obtain ⟨t, ht1, ht2⟩ := split_through heq hnot
      match t, ht1, ht2 with
      | [], ht1, ht2 =>
        exfalso
        rw [List.nil_append] at ht2
        have he_edge : edge = e := ((List.cons.injEq _ _ _ _).mp ht2).1
        exact hxe (by rw [← hec, ← he_edge])
      | a :: t', ht1, ht2 =>
        rw [List.cons_append] at ht2
        have ha : edge = a := ((List.cons.injEq _ _ _ _).mp ht2).1
        have hrest : rest = t' ++ e :: l2 := ((List.cons.injEq _ _ _ _).mp ht2).2
        have heq_old : edge :: rest = (edge :: t') ++ e :: l2 := by
          rw [List.cons_append, hrest]
        have hfree_old : ∀ e' ∈ edge :: t', e'.child ≠ x := by
          intro e' he'
          apply hfree
          rw [ht1, ← ha]
          rcases List.mem_cons.mp he' with rfl | he'
          · exact List.mem_append.mpr (Or.inr (List.mem_cons_self e' t'))
          · exact List.mem_append.mpr (Or.inr (List.mem_cons_of_mem _ he'))
        have hold := hinv.above_desc x hxP hxv (edge :: t') e l2 heq_old hec hfree_old
        have htgnode : Relation.TransGen (childRel g) x edge.child :=
          hold edge (List.mem_cons_self edge t')
        intro e' he'
        rw [ht1, ← ha] at he'
        rcases List.mem_append.mp he' with h | h
        · exact Relation.TransGen.tail htgnode ⟨cs, hget, (hSp e' h).2.1⟩
        · exact hold e' h
  · intro x hx hxv l1 e l2 heq hec hfree
    by_cases hxe : x = edge.child
    · subst hxe
      have hnot : e ∉ Sp := by
        intro hmem
        exact hchild_ne e.child (hSp e hmem).2.1 hec
      obtain ⟨t, ht1, ht2⟩ := split_through heq hnot
      match t, ht1, ht2 with
      | [], ht1, ht2 =>
        rw [List.nil_append] at ht2
        intro e' he'
        rw [← ht2] at he'
        exact hold_no_parent e' he'
      | a :: t', ht1, ht2 =>
        exfalso
        rw [List.cons_append] at ht2
        have ha : edge = a := ((List.cons.injEq _ _ _ _).mp ht2).1
        have hmem : a ∈ l1 := by
          rw [ht1]
          exact List.mem_append.mpr (Or.inr (List.mem_cons_self a t'))
        exact hfree a hmem (by rw [← ha])
    · have hxP : pmem x P = true := by
        rcases (hpm' x).mp hx with rfl | h
        · exact absurd rfl hxe
        · exact h
      have hnot : e ∉ Sp := by
        intro hmem
        have := (hSp e hmem).2.2
        rw [hec, hxP] at this
        exact absurd this (by simp)
      obtain ⟨t, ht1, ht2⟩ := split_through heq hnot
      match t, ht1, ht2 with
      | [], ht1, ht2 =>
        exfalso
        rw [List.nil_append] at ht2
        have he_edge : edge = e := ((List.cons.injEq _ _ _ _).mp ht2).1
        exact hxe (by rw [← hec, ← he_edge])
      | a :: t', ht1, ht2 =>
        rw [List.cons_append] at ht2
        have ha : edge = a := ((List.cons.injEq _ _ _ _).mp ht2).1
        have hrest : rest = t' ++ e :: l2 := ((List.cons.injEq _ _ _ _).mp ht2).2
        have heq_old : edge :: rest = (edge :: t') ++ e :: l2 := by
          rw [List.cons_append, hrest]
        have hfree_old : ∀ e' ∈ edge :: t', e'.child ≠ x := by
          intro e' he'
          apply hfree
          rw [ht1, ← ha]
          rcases List.mem_cons.mp he' with rfl | he'
          · exact List.mem_append.mpr (Or.inr (List.mem_cons_self e' t'))
          · exact List.mem_append.mpr (Or.inr (List.mem_cons_of_mem _ he'))
        exact hinv.below_no_parent x hxP hxv (edge :: t') e l2 heq_old hec hfree_old
  · intro x hx
    rcases (hpm' x).mp hx with rfl | h
    · rw [hget]
      rfl
    · exact hinv.opened_get x h
  · intro x cs' hx hget' c hc
    by_cases hxe : x = edge.child
    · subst hxe
      rw [hget] at hget'
      have hcs : cs' = cs := by
        rw [Option.some.injEq] at hget'
        exact hget'.symm
      subst hcs
      by_cases hcm : pmem c P = true
      · exact Or.inl (hzeroV c hc hcm)
      · have hcf : pmem c P = false := by
          rw [Bool.not_eq_true] at hcm
          exact hcm
        obtain ⟨e, he, hec⟩ := hcov c hc hcf
        exact Or.inr ⟨e, List.mem_append.mpr (Or.inl he), (hSp e he).1, hec⟩
    · have hxP : pmem x P = true := by
        rcases (hpm' x).mp hx with rfl | h
        · exact absurd rfl hxe
        · exact h
      rcases hinv.children_covered x cs' hxP hget' c hc with h | ⟨e, he, hep, hec⟩
      · exact Or.inl h
      · exact Or.inr ⟨e, List.mem_append.mpr (Or.inr he), hep, hec⟩
  · intro s hs
    rcases hinv.starts_covered s hs with h | ⟨e, he, hec⟩
    · exact Or.inl h
    · exact Or.inr ⟨e, List.mem_append.mpr (Or.inr he), hec⟩

/-- One loop iteration of `dependency_order`, classified: from an invariant
state the step either finishes (empty stack) or moves to another invariant
state with a strictly smaller measure; it never faults and never trips the
internal assertion. -/
theorem depStep_classify {g : Graph} {starts : List NodeIdx}
    (hac : AcyclicFrom g starts) (hcl : Closed g starts)
    {S : List Edge} {P : PMap} {V L : List NodeIdx}
    (hinv : DepInv g starts S P V L) :
    (S = [] ∧ depStep g S P V L = .done L)
    ∨ ∃ S' P' V' L', depStep g S P V L = .next S' P' V' L'
        ∧ DepInv g starts S' P' V' L'
        ∧ depMeasure g starts S' P' < depMeasure g starts S P := by
  match S with
  | [] => exact Or.inl ⟨rfl, rfl⟩
  | edge :: rest =>
    right
    have hreach : ReachFrom g starts edge.child :=
      hinv.stack_reach edge (List.mem_cons_self edge rest)
    have hgs : (g.get edge.child).isSome := reachFrom_isSome hcl hreach
    obtain ⟨cs, hget⟩ : ∃ cs, g.get edge.child = some cs := by
      match hg : g.get edge.child with
      | none => rw [hg] at hgs; exact absurd hgs (by simp)
      | some cs => exact ⟨cs, rfl⟩
    by_cases hm : pmem edge.child P = true
    · -- already tracked: counter must be zero, resolve
      obtain ⟨n, hl⟩ : ∃ n, pLookup edge.child P = some n := by
        unfold pmem at hm
        match hp : pLookup edge.child P with
        | none => rw [hp] at hm; exact absurd hm (by simp)
        | some n => exact ⟨n, rfl⟩
      have hn0 : n = 0 := by
        by_contra hn
        exact top_opened_zero hinv hl hn
      subst hn0
      have hF5 : (edge :: rest).countP (fun e => decide (e.parent = some edge.child))
          = 0 := by
        have := hinv.counts edge.child hm
        rw [hl] at this
        simpa using this.symm
      have hF6 : ∀ cs', g.get edge.child = some cs' → ∀ c ∈ cs', c ∈ V := by
        intro cs' hget' c hc
        rcases hinv.children_covered edge.child cs' hm hget' c hc with h | ⟨e, he, hep, _⟩
        · exact h
        · exfalso
          have : 0 < (edge :: rest).countP
              (fun e => decide (e.parent = some edge.child)) := by
            apply List.countP_pos_iff.mpr
            exact ⟨e, he, by simp [hep]⟩
          omega
      have hcnt_rest : ∀ x, x ≠ edge.child ∨ True →
          (edge :: rest).countP (fun e => decide (e.parent = some x))
            = rest.countP (fun e => decide (e.parent = some x))
              + (if edge.parent = some x then 1 else 0) := by
        intro x _
        rw [List.countP_cons]
        by_cases hh : edge.parent = some x <;> simp [hh]
      match hpar : edge.parent with
      | none =>
        refine ⟨rest, P,
          if edge.child ∈ V then V else edge.child :: V,
          if edge.child ∈ V then L else L ++ [edge.child], ?_, ?_, ?_⟩
        · by_cases hv : edge.child ∈ V
          · simp [depStep, hl, hpar, hv]
          · simp [depStep, hl, hpar, hv]
        · apply dep_resolve_inv hinv
          · intro x
            constructor
            · exact Or.inr
            · rintro (rfl | h)
              · exact hm
              · exact h
          · intro x hx
            rcases hx with rfl | hx
            · exact hl
            · exact hinv.visited_zero x hx
          · intro x hx
            have := hinv.counts x hx
            rw [hcnt_rest x (Or.inr trivial)] at this
            rw [this]
            simp [hpar]
          · exact hF6
          · exact hgs
        · unfold depMeasure
          simp only [List.length_cons]
          omega
      | some pa =>
        have hpam : pmem pa P = true :=
          hinv.stack_parent edge (List.mem_cons_self edge rest) pa hpar
        have hpane : pa ≠ edge.child := by
          intro h
          rw [h] at hpar
          have h5 := hF5
          rw [hcnt_rest edge.child (Or.inr trivial), if_pos hpar] at h5
          omega
        obtain ⟨kpa, hkpa⟩ : ∃ k, pLookup pa P = some k := by
          unfold pmem at hpam
          match hp : pLookup pa P with
          | none => rw [hp] at hpam; exact absurd hpam (by simp)
          | some k => exact ⟨k, rfl⟩
        have hkpa_cnt : kpa = rest.countP (fun e => decide (e.parent = some pa)) + 1 := by
          have := hinv.counts pa hpam
          rw [hkpa] at this
          rw [hcnt_rest pa (Or.inr trivial), if_pos hpar] at this
          simpa using this
        refine ⟨rest, pDec pa P,
          if edge.child ∈ V then V else edge.child :: V,
          if edge.child ∈ V then L else L ++ [edge.child], ?_, ?_, ?_⟩
        · by_cases hv : edge.child ∈ V
          · simp [depStep, hl, hpar, hv, hkpa]
          · simp [depStep, hl, hpar, hv, hkpa]
        · apply dep_resolve_inv hinv
          · intro x
            rw [pmem_pDec]
            constructor
            · exact Or.inr
            · rintro (rfl | h)
              · exact hm
              · exact h
          · intro x hx
            rcases hx with rfl | hx
            · rw [pDec_lookup_ne (fun h => hpane h.symm)]
              exact hl
            · have hxz := hinv.visited_zero x hx
              have hxpa : x ≠ pa := by
                intro h
                subst h
                rw [hxz] at hkpa
                rw [Option.some.injEq] at hkpa
                omega
              rw [pDec_lookup_ne hxpa]
              exact hxz
          · intro x hx
            rw [pmem_pDec] at hx
            by_cases hxpa : x = pa
            · subst hxpa
              rw [pDec_lookup_self hkpa, hkpa_cnt]
              simp
            · rw [pDec_lookup_ne hxpa]
              have := hinv.counts x hx
              rw [hcnt_rest x (Or.inr trivial)] at this
              rw [this]
              have : ¬ (edge.parent = some x) := by
                rw [hpar]
                intro h
                rw [Option.some.injEq] at h
                exact hxpa h.symm
              simp [this]
          · exact hF6
          · exact hgs
        · unfold depMeasure
          have : uCount g starts (pDec pa P) = uCount g starts P :=
            uCount_congr (fun x => pmem_pDec)
          rw [this]
          simp only [List.length_cons]
          omega
    · -- fresh node
      have hfresh : pmem edge.child P = false := by
        rw [Bool.not_eq_true] at hm
        exact hm
      have hnone : pLookup edge.child P = none := by
        unfold pmem at hfresh
        exact Option.not_isSome_iff_eq_none.mp (by rw [hfresh]; simp)
      have hnodeV : edge.child ∉ V := by
        intro hv
        have := visited_pmem hinv hv
        rw [hfresh] at this
        exact absurd this (by simp)
      have hucount : uCount g starts P
          = uCount g starts (pInsert edge.child cs.length P) + 1 := by
        apply uCount_strict hfresh
        · exact pmem_pInsert.mpr (Or.inl rfl)
        · intro x hx
          exact pmem_pInsert_ne hx
        · exact reachFrom_mem_univ hreach
      have hF5f : ∀ x, pmem x P = false →
          (edge :: rest).countP (fun e => decide (e.parent = some x)) = 0 := by
        intro x hxf
        rw [List.countP_eq_zero]
        intro e he
        simp only [decide_eq_true_eq]
        intro hp
        have := hinv.stack_parent e he x hp
        rw [hxf] at this
        exact absurd this (by simp)
      by_cases hcs0 : cs.length = 0
      · -- no children: resolve immediately as a fresh zero node
        have hcs_nil : cs = [] := List.length_eq_zero.mp hcs0
        have hF6 : ∀ cs', g.get edge.child = some cs' → ∀ c ∈ cs', c ∈ V := by
          intro cs' hget' c hc
          rw [hget] at hget'
          rw [Option.some.injEq] at hget'
          subst hget'
          rw [hcs_nil] at hc
          exact absurd hc (List.not_mem_nil c)
        have hpm1 : ∀ x, pmem x (pInsert edge.child cs.length P) = true
            ↔ (x = edge.child ∨ pmem x P = true) := fun x => pmem_pInsert
        match hpar : edge.parent with
        | none =>
          refine ⟨rest, pInsert edge.child cs.length P,
            edge.child :: V, L ++ [edge.child], ?_, ?_, ?_⟩
          · simp [depStep, hnone, hget, pLookup_pInsert_self, hcs0, hpar, hnodeV]
          · have := dep_resolve_inv hinv (pInsert edge.child cs.length P)
              hpm1 ?_ ?_ hF6 hgs
            · rw [if_neg hnodeV, if_neg hnodeV] at this
              exact this
            · intro x hx
              rcases hx with rfl | hx
              · rw [pLookup_pInsert_self, hcs0]
              · have hxne : x ≠ edge.child := fun h => hnodeV (h ▸ hx)
                rw [pLookup_pInsert_ne hxne]
                exact hinv.visited_zero x hx
            · intro x hx
              rcases (hpm1 x).mp hx with rfl | hxP
              · rw [pLookup_pInsert_self, hcs0]
                have h5 := hF5f edge.child hfresh
                rw [List.countP_cons] at h5
                have hrest0 :
                    rest.countP (fun e => decide (e.parent = some edge.child)) = 0 := by
                  omega
                rw [hrest0]
              · have hxne : x ≠ edge.child := by
                  intro h
                  rw [h, hfresh] at hxP
                  exact absurd hxP (by simp)
                rw [pLookup_pInsert_ne hxne]
                have hcx := hinv.counts x hxP
                rw [List.countP_cons] at hcx
                have hnope : ¬ (edge.parent = some x) := by
                  rw [hpar]
                  simp
                have hdf : (decide (edge.parent = some x)) = false := by
                  simp [hnope]
                rw [hdf] at hcx
                simpa using hcx
          · unfold depMeasure
            rw [hucount]
            simp only [List.length_cons]
            have hM : 0 < maxDeg g + 1 := Nat.succ_pos _
            nlinarith [hucount]
        | some pa =>
          have hpam : pmem pa P = true :=
            hinv.stack_parent edge (List.mem_cons_self edge rest) pa hpar
          have hpane : pa ≠ edge.child := by
            intro h
            rw [h] at hpam
            rw [hfresh] at hpam
            exact absurd hpam (by simp)
          obtain ⟨kpa, hkpa⟩ : ∃ k, pLookup pa P = some k := by
            unfold pmem at hpam
            match hp : pLookup pa P with
            | none => rw [hp] at hpam; exact absurd hpam (by simp)
            | some k => exact ⟨k, rfl⟩
          have hkpa1 : pLookup pa (pInsert edge.child cs.length P) = some kpa := by
            rw [pLookup_pInsert_ne hpane]
            exact hkpa
          have hkpa_cnt : kpa
              = rest.countP (fun e => decide (e.parent = some pa)) + 1 := by
            have := hinv.counts pa hpam
            rw [hkpa] at this
            rw [List.countP_cons] at this
            have : kpa = rest.countP (fun e => decide (e.parent = some pa))
                + if edge.parent = some pa then 1 else 0 := by simpa using this
            rw [if_pos hpar] at this
            exact this
          have hkpa0 : pLookup pa (pInsert edge.child 0 P) = some kpa := by
            rw [← hcs0]
            exact hkpa1
          refine ⟨rest, pDec pa (pInsert edge.child cs.length P),
            edge.child :: V, L ++ [edge.child], ?_, ?_, ?_⟩
          · simp [depStep, hnone, hget, pLookup_pInsert_self, hcs0, hpar, hnodeV, hkpa0]
          · have := dep_resolve_inv hinv
              (pDec pa (pInsert edge.child cs.length P)) ?_ ?_ ?_ hF6 hgs
            · rw [if_neg hnodeV, if_neg hnodeV] at this
              exact this
            · intro x
              rw [pmem_pDec]
              exact hpm1 x
            · intro x hx
              rcases hx with rfl | hx
              · rw [pDec_lookup_ne (fun h => hpane h.symm), pLookup_pInsert_self, hcs0]
              · have hxne : x ≠ edge.child := fun h => hnodeV (h ▸ hx)
                have hxz := hinv.visited_zero x hx
                have hxpa : x ≠ pa := by
                  intro h
                  subst h
                  rw [hxz] at hkpa
                  rw [Option.some.injEq] at hkpa
                  omega
                rw [pDec_lookup_ne hxpa, pLookup_pInsert_ne hxne]
                exact hxz
            · intro x hx
              rw [pmem_pDec] at hx
              by_cases hxpa : x = pa
              · subst hxpa
                rw [pDec_lookup_self hkpa1, hkpa_cnt]
                simp
              · rw [pDec_lookup_ne hxpa]
                rcases (hpm1 x).mp hx with rfl | hxP
                · rw [pLookup_pInsert_self, hcs0]
                  have h5 := hF5f edge.child hfresh
                  rw [List.countP_cons] at h5
                  have hrest0 :
                      rest.countP (fun e => decide (e.parent = some edge.child)) = 0 := by
                    omega
                  rw [hrest0]
                · have hxne : x ≠ edge.child := by
                    intro h
                    rw [h, hfresh] at hxP
                    exact absurd hxP (by simp)
                  rw [pLookup_pInsert_ne hxne]
                  have hcx := hinv.counts x hxP
                  rw [List.countP_cons] at hcx
                  have hnope : ¬ (edge.parent = some x) := by
                    rw [hpar]
                    intro h
                    rw [Option.some.injEq] at h
                    exact hxpa h.symm
                  have hdf : (decide (edge.parent = some x)) = false := by
                    simp [hnope]
                  rw [hdf] at hcx
                  simpa using hcx
          · unfold depMeasure
            have huc : uCount g starts (pDec pa (pInsert edge.child cs.length P))
                = uCount g starts (pInsert edge.child cs.length P) :=
              uCount_congr (fun x => pmem_pDec)
            rw [huc, hucount]
            simp only [List.length_cons]
            nlinarith [hucount]
      · -- expansion
        have hchild_ne : ∀ c ∈ cs, c ≠ edge.child := by
          intro c hc h
          subst h
          exact hac edge.child hreach (Relation.TransGen.single ⟨cs, hget, hc⟩)
        have hzeroV : ∀ c ∈ cs, pmem c P = true → c ∈ V := by
          intro c hc hcm
          exact opened_child_visited hac hinv ⟨cs, hget, hc⟩ (hchild_ne c hc) hcm
        have hzeroP1 : ∀ c ∈ cs, pmem c (pInsert edge.child cs.length P) = true →
            pLookup c (pInsert edge.child cs.length P) = some 0 := by
          intro c hc hcm
          have hcne := hchild_ne c hc
          rw [pmem_pInsert_ne hcne] at hcm
          rw [pLookup_pInsert_ne hcne]
          exact hinv.visited_zero c (hzeroV c hc hcm)
        obtain ⟨Sp, P', heq, hSp, hcov, hlen, hpm, hlk, hself⟩ :=
          expand_spec edge.child cs (edge :: rest) (pInsert edge.child cs.length P)
            hchild_ne hzeroP1
        have hpmcs : ∀ c ∈ cs, pmem c (pInsert edge.child cs.length P) = pmem c P :=
          fun c hc => pmem_pInsert_ne (hchild_ne c hc)
        have hself' : pLookup edge.child P' = some Sp.length := by
          have h1 := hself cs.length pLookup_pInsert_self
          have h2 : cs.countP (fun c => pmem c (pInsert edge.child cs.length P))
              = cs.countP (fun c => pmem c P) := by
            apply List.countP_congr
            intro c hc
            rw [hpmcs c hc]
          have h3 : Sp.length = cs.countP (fun c => !(pmem c P)) := by
            rw [hlen]
            apply List.countP_congr
            intro c hc
            rw [hpmcs c hc]
          have h4 := countP_not_add (fun c => pmem c P) cs
          rw [h1, h2]
          rw [h3]
          congr 1
          omega
        refine ⟨Sp ++ edge :: rest, P', V, L, ?_, ?_, ?_⟩
        · simp [depStep, hnone, hget, pLookup_pInsert_self, hcs0, heq]
        · apply dep_expand_inv hac hinv hget hfresh ?_ ?_ ?_ ?_ hself'
          · intro e he
            obtain ⟨h1, h2, h3⟩ := hSp e he
            refine ⟨h1, h2, ?_⟩
            rw [hpmcs e.child h2] at h3
            exact h3
          · intro c hc hcf
            apply hcov c hc
            rw [hpmcs c hc]
            exact hcf
          · intro x
            rw [hpm x]
            exact pmem_pInsert
          · intro x hx
            rw [hlk x hx, pLookup_pInsert_ne hx]
        · unfold depMeasure
          have huc : uCount g starts P' = uCount g starts (pInsert edge.child cs.length P) :=
            uCount_congr hpm
          rw [huc, hucount]
          have hsp_le : Sp.length ≤ cs.length := by
            rw [hlen]
            exact List.countP_le_length _
          have hcs_le : cs.length ≤ maxDeg g := length_le_maxDeg hget
          simp only [List.length_append, List.length_cons]
          nlinarith [hsp_le, hcs_le]

theorem pmem_nil {x : NodeIdx} : pmem x ([] : PMap) = false := rfl

/-- The invariant holds at the initial state of `dependency_order`. -/
theorem dep_init (g : Graph) (starts : List NodeIdx) :
    DepInv g starts
      (starts.reverse.map (fun s => { parent := none, child := s })) [] [] [] := by
  have hnm : ∀ x, pmem x ([] : PMap) = true → False := by
    intro x hx
    rw [pmem_nil] at hx
    exact absurd hx (by simp)
  refine ⟨List.nodup_nil, by simp, by simp, ?_, ?_, ?_, ?_, ?_, ?_, ?_, ?_, ?_, ?_, ?_⟩
  · intro i hi
    exact absurd hi (by simp)
  · intro x hx
    exact absurd hx (fun h => hnm x h)
  · intro e he
    obtain ⟨s, hs, rfl⟩ := List.mem_map.mp he
    exact ⟨s, List.mem_reverse.mp hs, Relation.ReflTransGen.refl⟩
  · intro e he p hp
    obtain ⟨s, _, rfl⟩ := List.mem_map.mp he
    exact absurd hp (by simp)
  · intro x hx
    exact absurd hx (fun h => hnm x h)
  · intro x hx
    exact absurd hx (fun h => hnm x h)
  · intro x hx
    exact absurd hx (fun h => hnm x h)
  · intro x hx
    exact absurd hx (fun h => hnm x h)
  · intro x hx
    exact absurd hx (fun h => hnm x h)
  · intro x cs hx
    exact absurd hx (fun h => hnm x h)
  · intro s hs
    refine Or.inr ⟨{ parent := none, child := s }, ?_, rfl⟩
    exact List.mem_map.mpr ⟨s, List.mem_reverse.mpr hs, rfl⟩

/-- From an invariant state with enough fuel, the loop returns normally, in a
final state that still satisfies the invariant with an empty stack. -/
theorem dep_run {g : Graph} {starts : List NodeIdx}
    (hac : AcyclicFrom g starts) (hcl : Closed g starts) :
    ∀ fuel S P V L, DepInv g starts S P V L →
      depMeasure g starts S P < fuel →
      ∃ P' V' L', depAux g fuel S P V L = .ok L' ∧ DepInv g starts [] P' V' L' := by
  intro fuel
  induction fuel with
  | zero =>
    intro S P V L _ hlt
    exact absurd hlt (Nat.not_lt_zero _)
  | succ fuel ih =>
    intro S P V L hinv hlt
    rcases depStep_classify hac hcl hinv with ⟨hS, hstep⟩ | ⟨S', P', V', L', hstep, hinv', hm⟩
    · subst hS
      exact ⟨P, V, L, by rw [depAux, hstep], hinv⟩
    · have : depAux g (fuel + 1) S P V L = depAux g fuel S' P' V' L' := by
        rw [depAux, hstep]
      rw [this]
      exact ih S' P' V' L' hinv' (by omega)

/-- From an invariant state, the loop can never trip the internal
`assert_eq!`, whatever the fuel. -/
theorem dep_no_assert {g : Graph} {starts : List NodeIdx}
    (hac : AcyclicFrom g starts) (hcl : Closed g starts) :
    ∀ fuel S P V L, DepInv g starts S P V L →
      depAux g fuel S P V L ≠ .assertFail := by
  intro fuel
  induction fuel with
  | zero =>
    intro S P V L _
    simp [depAux]
  | succ fuel ih =>
    intro S P V L hinv
    rcases depStep_classify hac hcl hinv with ⟨hS, hstep⟩ | ⟨S', P', V', L', hstep, hinv', _⟩
    · subst hS
      rw [depAux, hstep]
      simp
    · rw [depAux, hstep]
      exact ih S' P' V' L' hinv'

/-- Extracting the claimed properties from a final invariant state. -/
theorem dep_final {g : Graph} {starts : List NodeIdx}
    {P : PMap} {V L : List NodeIdx} (hinv : DepInv g starts [] P V L) :
    L.Nodup ∧ (∀ x, x ∈ L ↔ ReachFrom g starts x)
      ∧ ∀ (i j : Fin L.length), childRel g (L.get i) (L.get j) → (j : Nat) < (i : Nat) := by
  have hVclosed : ∀ v ∈ V, ∀ c, childRel g v c → c ∈ V := by
    intro v hv c hc
    obtain ⟨cs, hget, hcmem⟩ := hc
    rcases hinv.children_covered v cs (visited_pmem hinv hv) hget c hcmem
      with h | ⟨e, he, _⟩
    · exact h
    · exact absurd he (List.not_mem_nil e)
  have hstarts : ∀ s ∈ starts, s ∈ V := by
    intro s hs
    rcases hinv.starts_covered s hs with h | ⟨e, he, _⟩
    · exact h
    · exact absurd he (List.not_mem_nil e)
  refine ⟨hinv.nodupL, ?_, ?_⟩
  · intro x
    rw [hinv.memL x]
    constructor
    · intro hx
      exact hinv.opened_reach x (visited_pmem hinv hx)
    · rintro ⟨a, ha, hr⟩
      induction hr with
      | refl => exact hstarts a ha
      | tail _ hstep ihr => exact hVclosed _ ihr _ hstep
  · intro i j hc
    obtain ⟨j', hj', hji, hjc⟩ := hinv.ordered i i.isLt (L.get j) hc
    have : (⟨j', hj'⟩ : Fin L.length) = j := (List.Nodup.get_inj_iff hinv.nodupL).mp hjc
    have hj'' : j' = (j : Nat) := by
      rw [← this]
    omega

/-- A decreasing rank certifies acyclicity. -/
theorem acyclicFrom_of_rank {g : Graph} {starts : List NodeIdx} (rank : NodeIdx → Nat)
    (h : ∀ a b, childRel g a b → rank b < rank a) : AcyclicFrom g starts := by
  intro v _ htg
  have hmono : ∀ a b, Relation.TransGen (childRel g) a b → rank b < rank a := by
    intro a b h'
    induction h' with
    | single hs => exact h _ _ hs
    | tail _ hs ih => exact lt_trans (h _ _ hs) ih
  exact lt_irrefl _ (hmono v v htg)

theorem childRel_gLine {a b : NodeIdx} (h : childRel gLine a b) : a = 0 ∧ b = 1 := by
  obtain ⟨cs, hget, hb⟩ := h
  match a with
  | 0 =>
    have : cs = [1] := by
      have h0 : gLine.get 0 = some [1] := rfl
      rw [h0] at hget
      rw [Option.some.injEq] at hget
      exact hget.symm
    subst this
    exact ⟨rfl, List.mem_singleton.mp hb⟩
  | 1 =>
    have : cs = [] := by
      have h1 : gLine.get 1 = some [] := rfl
      rw [h1] at hget
      rw [Option.some.injEq] at hget
      exact hget.symm
    subst this
    exact absurd hb (List.not_mem_nil b)
  | n + 2 =>
    have : gLine.get (n + 2) = none := rfl
    rw [this] at hget
    exact absurd hget (by simp)

theorem acyclic_gLine : AcyclicFrom gLine [0] := by
  apply acyclicFrom_of_rank (fun x => 1 - x)
  intro a b h
  obtain ⟨rfl, rfl⟩ := childRel_gLine h
  decide

theorem childRel_gDangling {a b : NodeIdx} (h : childRel gDangling a b) :
    a = 0 ∧ b = 1 := by
  obtain ⟨cs, hget, hb⟩ := h
  match a with
  | 0 =>
    have : cs = [1] := by
      have h0 : gDangling.get 0 = some [1] := rfl
      rw [h0] at hget
      rw [Option.some.injEq] at hget
      exact hget.symm
    subst this
    exact ⟨rfl, List.mem_singleton.mp hb⟩
  | n + 1 =>
    have : gDangling.get (n + 1) = none := rfl
    rw [this] at hget
    exact absurd hget (by simp)

theorem acyclic_gDangling : AcyclicFrom gDangling [0] := by
  apply acyclicFrom_of_rank (fun x => 1 - x)
  intro a b h
  obtain ⟨rfl, rfl⟩ := childRel_gDangling h
  decide

/-- C1 counterexample: the dangling graph 0 → 1 (key 1 unresolvable) has an
acyclic reachable subgraph, yet `dependency_order` panics on it instead of
returning any sequence — the claim as stated, without a resolvability
premise, is false. -/
theorem dependency_order_dangling_no_ok :
    AcyclicFrom gDangling [0]
    ∧ ∀ fuel visit, dependency_order gDangling [0] fuel ≠ .ok visit := by
  refine ⟨acyclic_gDangling, ?_⟩
  intro fuel visit
  match fuel with
  | 0 => simp [dependency_order, depAux]
  | 1 =>
    have : dependency_order gDangling [0] 1 = .fuelOut := by decide
    rw [this]
    simp
  | n + 2 =>
    have hstep1 : depStep gDangling [{ parent := none, child := 0 }] [] [] []
        = .next [{ parent := some 0, child := 1 }, { parent := none, child := 0 }]
            [(0, 1)] [] [] := by decide
    have hstep2 : depStep gDangling
        [{ parent := some 0, child := 1 }, { parent := none, child := 0 }]
        [(0, 1)] [] [] = .fault := by decide
    have h1 : dependency_order gDangling [0] (n + 2)
        = depAux gDangling (n + 1)
            [{ parent := some 0, child := 1 }, { parent := none, child := 0 }]
            [(0, 1)] [] [] := by
      show depAux gDangling (n + 2) [{ parent := none, child := 0 }] [] [] [] = _
      rw [depAux, hstep1]
    rw [h1, depAux, hstep2]
    simp

/-- C1 (amended with the resolvability premise the counterexample forces):
for every finite graph whose subgraph reachable from `starts` is acyclic and
all of whose referenced keys resolve, `dependency_order` terminates and
returns a sequence in which each reachable node appears exactly once, every
reachable node appears, and every node's position is strictly after the
positions of all of its children. -/
theorem dependency_order_correct (g : Graph) (starts : List NodeIdx)
    (hac : AcyclicFrom g starts) (hcl : Closed g starts) :
    ∃ fuel visit, dependency_order g starts fuel = .ok visit
      ∧ visit.Nodup
      ∧ (∀ x, x ∈ visit ↔ ReachFrom g starts x)
      ∧ ∀ (i j : Fin visit.length),
          childRel g (visit.get i) (visit.get j) → (j : Nat) < (i : Nat) := by
  obtain ⟨P', V', L', hrun, hfin⟩ :=
    dep_run hac hcl
      (depMeasure g starts
        (starts.reverse.map (fun s => { parent := none, child := s })) [] + 1)
      (starts.reverse.map (fun s => { parent := none, child := s })) [] [] []
      (dep_init g starts) (Nat.lt_succ_self _)
  obtain ⟨hnd, hmem, hord⟩ := dep_final hfin
  exact ⟨_, L', hrun, hnd, hmem, hord⟩

theorem dependency_order_correct_witness :
    (AcyclicFrom gLine [0] ∧ Closed gLine [0])
    ∧ ∃ fuel visit, dependency_order gLine [0] fuel = .ok visit
      ∧ visit.Nodup
      ∧ (∀ x, x ∈ visit ↔ ReachFrom gLine [0] x)
      ∧ ∀ (i j : Fin visit.length),
          childRel gLine (visit.get i) (visit.get j) → (j : Nat) < (i : Nat) :=
  ⟨⟨acyclic_gLine, by decide⟩,
    dependency_order_correct gLine [0] acyclic_gLine (by decide)⟩

/-- C9: on every finite graph whose reachable subgraph is acyclic and whose
referenced keys all resolve, the internal `assert_eq!` of `dependency_order`
(the check that an already-tracked child has a pending count of exactly
zero) never fails, at any fuel bound. -/
theorem dependency_order_assert_never_fails (g : Graph) (starts : List NodeIdx)
    (hac : AcyclicFrom g starts) (hcl : Closed g starts) :
    ∀ fuel, dependency_order g starts fuel ≠ .assertFail := by
  intro fuel
  exact dep_no_assert hac hcl fuel _ _ _ _ (dep_init g starts)

theorem dependency_order_assert_never_fails_witness :
    (AcyclicFrom gLine [0] ∧ Closed gLine [0])
    ∧ dependency_order gLine [0] 7 ≠ .assertFail :=
  ⟨⟨acyclic_gLine, by decide⟩,
    dependency_order_assert_never_fails gLine [0] acyclic_gLine (by decide) 7⟩

end GraphSpec
